import Mathlib

set_option maxRecDepth 4000

/-
Verification development for the "Medical Lab Commander" single-file
application (src/app.py).

Modelling conventions:
- Python strings are modelled as `List Char` (named `Chars` below).
- Python floats are modelled as exact rationals `ℚ`; decimal literals in the
  source (0.1, 2000, 1e-6, ...) are taken at their exact decimal value.
- `str.upper()` is modelled character-wise for ASCII and the Greek letters
  that occur in the application's data; all other characters are unchanged.
- Python regular expressions are modelled by explicit matching functions that
  follow the backtracking order of the `re` engine (leftmost start position,
  alternatives in order, greedy quantifiers trying longest first).
- Calls into external services (Google Vision OCR, scipy/statsmodels) are
  abstracted as function parameters; the surrounding control flow is modelled
  faithfully.
-/

abbrev Chars := List Char

/- Python whitespace (`str.strip`, regex `\s`), restricted to the ASCII
whitespace characters. -/
def pyIsSpace (c : Char) : Bool :=
  decide (c.toNat = 32) || decide (c.toNat = 9) || decide (c.toNat = 10) ||
  decide (c.toNat = 11) || decide (c.toNat = 12) || decide (c.toNat = 13)

/- Character-wise model of `str.upper()`: ASCII a-z, Greek α-ω (including
final sigma) and the common accented Greek vowels. -/
def upperChar (c : Char) : Char :=
  let n := c.toNat
  if 97 ≤ n ∧ n ≤ 122 then Char.ofNat (n - 32)
  else if n = 0x3C2 then Char.ofNat 0x3A3
  else if 0x3B1 ≤ n ∧ n ≤ 0x3C9 then Char.ofNat (n - 32)
  else if n = 0x3AC then Char.ofNat 0x386
  else if n = 0x3AD then Char.ofNat 0x388
  else if n = 0x3AE then Char.ofNat 0x389
  else if n = 0x3AF then Char.ofNat 0x38A
  else if n = 0x3CC then Char.ofNat 0x38C
  else if n = 0x3CD then Char.ofNat 0x38E
  else if n = 0x3CE then Char.ofNat 0x38F
  else c

def upperStr (s : Chars) : Chars := s.map upperChar

/- `str.strip()` (no argument): drop whitespace from both ends. -/
def pyStrip (s : Chars) : Chars :=
  ((s.dropWhile pyIsSpace).reverse.dropWhile pyIsSpace).reverse

/- `str.strip(bad)`: drop characters of the set `bad` from both ends. -/
def pyStripOn (bad : Chars) (s : Chars) : Chars :=
  ((s.dropWhile (fun c => bad.contains c)).reverse.dropWhile
    (fun c => bad.contains c)).reverse

/- Python's substring test `sub in s`. -/
def strIn (sub : Chars) : Chars → Bool
  | [] => sub.isPrefixOf ([] : Chars)
  | c :: rest => sub.isPrefixOf (c :: rest) || strIn sub rest

/- Python's `s.split("\n")`. -/
def splitOnNl : Chars → List Chars
  | [] => [[]]
  | c :: rest =>
    if c = Char.ofNat 10 then [] :: splitOnNl rest
    else
      match splitOnNl rest with
      | [] => [[c]]
      | h :: t => (c :: h) :: t

/- `re.sub(r"\s+", " ", s)`: replace each maximal whitespace run by one
space. -/
def subWsPlus : Chars → Chars
  | [] => []
  | [c] => if pyIsSpace c then [' '] else [c]
  | c :: d :: rest =>
    if pyIsSpace c && pyIsSpace d then subWsPlus (d :: rest)
    else (if pyIsSpace c then ' ' else c) :: subWsPlus (d :: rest)

/- `normalize_line` (src/app.py lines 55-58): strip, then collapse
whitespace. -/
def normalizeLine (s : Chars) : Chars := subWsPlus (pyStrip s)

/- Spec-side description for claim C7: the maximal non-whitespace runs of a
string, in order. -/
def wordsOf : Chars → List Chars
  | [] => []
  | c :: rest =>
    if pyIsSpace c then wordsOf rest
    else (c :: rest.takeWhile (fun d => !pyIsSpace d)) ::
      wordsOf (rest.dropWhile (fun d => !pyIsSpace d))
termination_by s => s.length
decreasing_by
· simp only [List.length_cons]; omega
· simp only [List.length_cons]
  have h := (@List.dropWhile_sublist Char rest (fun d => !pyIsSpace d)).length_le
  omega

/- Spec-side: join words with single spaces. -/
def spaceJoin : List Chars → Chars
  | [] => []
  | [w] => w
  | w :: rest => w ++ ' ' :: spaceJoin rest

/- First stage of `clean_number` (src/app.py lines 77-82): the chained
`str.replace` calls.  The replaced characters are disjoint from the
replacement results, so a single character-wise pass is equivalent. -/
def junkCleanChar (c : Char) : Option Char :=
  if c = Char.ofNat 34 ∨ c = Char.ofNat 39 ∨ c = ':' ∨ c = '*' ∨ c = '$' ∨
      c = Char.ofNat 0x2264 ∨ c = Char.ofNat 0x2265 ∨ c = '<' ∨ c = '>' then
    none
  else if c = 'O' ∨ c = 'o' then some '0'
  else if c = Char.ofNat 0x2013 ∨ c = Char.ofNat 0x2212 then some '-'
  else some c

def junkClean (s : Chars) : Chars := s.filterMap junkCleanChar

/- `re.sub(r"[^0-9,.\-]", "", s)` (src/app.py line 85). -/
def keepNumChar (c : Char) : Bool :=
  c.isDigit || c = ',' || c = '.' || c = '-'

def keepNumChars (s : Chars) : Chars := s.filter keepNumChar

/- Index of the last occurrence of `c` (Python `str.rfind`, defined only
when present). -/
def findLastIdx (c : Char) : Chars → Option Nat
  | [] => none
  | d :: rest =>
    match findLastIdx c rest with
    | some i => some (i + 1)
    | none => if d = c then some 0 else none

/- Decimal-separator resolution of `clean_number`
(src/app.py lines 88-102). -/
def sepResolve (s : Chars) : Chars :=
  if s.contains ',' && s.contains '.' then
    let lc := (findLastIdx ',' s).getD 0
    let ld := (findLastIdx '.' s).getD 0
    if ld < lc then
      (s.filter (fun c => !(c = '.'))).map (fun c => if c = ',' then '.' else c)
    else s.filter (fun c => !(c = ','))
  else if s.contains ',' && !(s.contains '.') then
    (s.filter (fun c => !(c = '.'))).map (fun c => if c = ',' then '.' else c)
  else s

/- Minus-sign cleanup of `clean_number` (src/app.py lines 107-110). -/
def minusClean (s : Chars) : Chars :=
  let s1 := if 1 < s.count '-' then s.filter (fun c => !(c = '-')) else s
  if s1.contains '-' && !(decide (s1.head? = some '-')) then
    s1.filter (fun c => !(c = '-'))
  else s1

def natOfDigits (l : Chars) : Nat :=
  l.foldl (fun a c => 10 * a + (c.toNat - 48)) 0

/- Python `float()` on an unsigned string made of digits and dots:
`digits`, `digits.`, `.digits` or `digits.digits`.  The value
`ip.frac = (ip·10^|frac| + frac) / 10^|frac|` is built with `mkRat` so that
it evaluates by `decide` (the `+`/`/` rational operations are
`@[irreducible]`). -/
def parseUFloat (s : Chars) : Option ℚ :=
  let ip := s.takeWhile Char.isDigit
  match s.drop ip.length with
  | [] => if ip = [] then none else some (mkRat (Int.ofNat (natOfDigits ip)) 1)
  | c :: frac =>
    if c = '.' && frac.all Char.isDigit && !(ip = [] && frac = []) then
      some (mkRat
        (Int.ofNat (natOfDigits ip * 10 ^ frac.length + natOfDigits frac))
        (10 ^ frac.length))
    else none

/- Negation on `ℚ` as an explicit structure map (definitionally the value
of `-q`, stated so for computability). -/
def ratNeg (q : ℚ) : ℚ :=
  ⟨-q.num, q.den, q.den_nz, by simpa using q.reduced⟩

/- Python `float()` on the strings reachable in `clean_number` (digits,
dots, at most one leading minus). -/
def parseFloat (s : Chars) : Option ℚ :=
  match s with
  | c :: rest =>
    if c = '-' then (parseUFloat rest).map ratNeg
    else parseUFloat s
  | [] => none

/- `clean_number` (src/app.py lines 63-115). -/
def cleanNumber (s : Chars) : Option ℚ :=
  if s = [] then none
  else parseFloat (minusClean (pyStrip (sepResolve (keepNumChars
    (junkClean (pyStrip s))))))

/- Spec-side for claim C7: removal of the OCR noise characters named by the
spec (quotes, ':', '*', '$', '<', '>', '≤', '≥') and reading O/o as 0. -/
def stripNoiseChar (c : Char) : Option Char :=
  if c = Char.ofNat 34 ∨ c = Char.ofNat 39 ∨ c = ':' ∨ c = '*' ∨ c = '$' ∨
      c = '<' ∨ c = '>' ∨ c = Char.ofNat 0x2264 ∨ c = Char.ofNat 0x2265 then
    none
  else if c = 'O' ∨ c = 'o' then some '0'
  else some c

def stripNoise (s : Chars) : Chars := s.filterMap stripNoiseChar

/- The numeric-literal regex of `find_all_numbers` / `auto_extract_results`:
`[-]?\d{1,3}(?:[.,]\d{3})*(?:[.,]\d+)?|[-]?\d+(?:[.,]\d+)?`.
The functions below enumerate the match candidates at a fixed start
position in the engine's backtracking order. -/
def sepChar (c : Char) : Bool := c = '.' || c = ','

def leadDigits (s : Chars) : Chars := s.takeWhile Char.isDigit

/- `[n, n-1, ..., 1]`. -/
def descRange : Nat → List Nat
  | 0 => []
  | n + 1 => (n + 1) :: descRange n

/- `[n, n-1, ..., 0]`. -/
def descRange0 : Nat → List Nat
  | 0 => [0]
  | n + 1 => (n + 1) :: descRange0 n

/- The maximal run of `(?:[.,]\d{3})` groups at the head of the string. -/
def starChunks : Chars → List Chars
  | a :: b :: c :: d :: rest =>
    if sepChar a && b.isDigit && c.isDigit && d.isDigit then
      [a, b, c, d] :: starChunks rest
    else []
  | _ => []

/- Candidates for the optional `(?:[.,]\d+)?` tail, in engine order:
longest fractional part first, then the empty match. -/
def optCands (r : Chars) : List (Chars × Chars) :=
  match r with
  | a :: rest =>
    if sepChar a then
      (descRange (leadDigits rest).length).map
        (fun n => (a :: rest.take n, rest.drop n)) ++ [([], r)]
    else [([], r)]
  | [] => [([], r)]

/- First alternative `\d{1,3}(?:[.,]\d{3})*(?:[.,]\d+)?` (without sign):
backtracking order is initial digit count descending, then number of
1000-groups descending, then the optional tail. -/
def core1 (s : Chars) : List (Chars × Chars) :=
  (descRange (min 3 (leadDigits s).length)).flatMap (fun d =>
    let pre := s.take d
    let r1 := s.drop d
    let ch := starChunks r1
    (descRange0 ch.length).flatMap (fun k =>
      (optCands (r1.drop (4 * k))).map
        (fun oc => (pre ++ (ch.take k).flatten ++ oc.1, oc.2))))

/- Second alternative `\d+(?:[.,]\d+)?` (without sign). -/
def core2 (s : Chars) : List (Chars × Chars) :=
  (descRange (leadDigits s).length).flatMap (fun e =>
    (optCands (s.drop e)).map (fun oc => (s.take e ++ oc.1, oc.2)))

/- Optional sign `[-]?`: the engine tries the sign first. -/
def brCands (core : Chars → List (Chars × Chars)) (s : Chars) :
    List (Chars × Chars) :=
  match s with
  | c :: rest =>
    if c = '-' then
      (core rest).map (fun tr => ('-' :: tr.1, tr.2)) ++ core s
    else core s
  | [] => core ([] : Chars)

/- All match candidates (token, remainder) of the numeric regex at the start
of `s`, in backtracking order. -/
def numCandidatesAt (s : Chars) : List (Chars × Chars) :=
  brCands core1 s ++ brCands core2 s

/- `find_all_numbers` preprocessing (src/app.py line 127). -/
def stripQC (s : Chars) : Chars :=
  s.map (fun c =>
    if c = Char.ofNat 34 ∨ c = Char.ofNat 39 ∨ c = ':' then ' ' else c)

/- The `re.findall` scan: at each position take the first candidate (no
trailing context, so the first candidate is the match), else advance one
character.  Fuel is the string length; every match consumes at least one
character. -/
def findAllTokensAux : Nat → Chars → List Chars
  | 0, _ => []
  | _ + 1, [] => []
  | fuel + 1, c :: rest =>
    match numCandidatesAt (c :: rest) with
    | (tok, rem) :: _ => tok :: findAllTokensAux fuel rem
    | [] => findAllTokensAux fuel rest

/- `find_all_numbers` (src/app.py lines 121-145). -/
def findAllNumbers (s : Chars) : List ℚ :=
  if s = [] then []
  else (findAllTokensAux (stripQC s).length (stripQC s)).filterMap cleanNumber

/- The word-boundary character class of `keyword_hit`: `[A-Z0-9Α-Ω]`. -/
def isWordUpper (c : Char) : Bool :=
  (decide (65 ≤ c.toNat) && decide (c.toNat ≤ 90)) ||
  (decide (48 ≤ c.toNat) && decide (c.toNat ≤ 57)) ||
  (decide (0x391 ≤ c.toNat) && decide (c.toNat ≤ 0x3A9))

/- End boundary `(?:$|[^A-Z0-9Α-Ω])`. -/
def tailOk : Chars → Bool
  | [] => true
  | c :: _ => !isWordUpper c

/- Match of the pattern via the `^` alternative (keyword at the start). -/
def atStartHit (l k : Chars) : Bool :=
  k.isPrefixOf l && tailOk (l.drop k.length)

/- Match via the `[^A-Z0-9Α-Ω]` alternative: scan for a non-word character
immediately followed by the keyword and an end boundary. -/
def midHit (k : Chars) : Chars → Bool
  | [] => false
  | c :: rest =>
    (!isWordUpper c && k.isPrefixOf rest && tailOk (rest.drop k.length)) ||
    midHit k rest

/- `re.search` of `(?:^|[^A-Z0-9Α-Ω])kw(?:$|[^A-Z0-9Α-Ω])`. -/
def boundHit (l k : Chars) : Bool := atStartHit l k || midHit k l

/- `keyword_hit` (src/app.py lines 192-206); the first argument is the
already-uppercased line, exactly as at the call sites. -/
def keywordHit (lineUpper kw : Chars) : Bool :=
  let k := pyStrip (upperStr kw)
  if k = [] then false
  else if k.contains ' ' then strIn k lineUpper
  else boundHit lineUpper k

/- `[(k or "").upper().strip() for k in keywords]` filtered to the truthy
ones (src/app.py lines 267-268). -/
def currentKws (kws : List Chars) : List Chars :=
  (kws.map (fun k => pyStrip (upperStr k))).filter (fun k => !(k = []))

/- `build_all_keywords` (src/app.py lines 185-190).  The Python set is
modelled as a list: the parser only tests membership, so order and
duplicates are irrelevant. -/
def buildAllKeywords (sel : List (Chars × List Chars)) : List Chars :=
  (((sel.map Prod.snd).flatten).map (fun k => pyStrip (upperStr k))).filter
    (fun k => !(k = []))

/- STOP LOGIC of `parse_google_text_deep` (src/app.py lines 290-297): the
next line contains a known keyword that is not an alias of the current
metric. -/
def stopsHere (allK curK : List Chars) (nxtUpper : Chars) : Bool :=
  allK.any (fun k => !(k = []) && !(curK.contains k) && keywordHit nxtUpper k)

/- The deep-look loop `for offset in range(1, 7)` (src/app.py lines
284-299), collecting candidates from following lines. -/
def lookaheadAux (lines : List Chars) (curK allK : List Chars) :
    Nat → Nat → List ℚ
  | _, 0 => []
  | idx, fuel + 1 =>
    match lines[idx]? with
    | none => []
    | some nxt =>
      if stopsHere allK curK (upperStr nxt) then []
      else findAllNumbers nxt ++ lookaheadAux lines curK allK (idx + 1) fuel

/- Candidates gathered for a metric whose keyword matched line `i`:
same-line numbers plus the lookahead window (src/app.py lines 278-299). -/
def gatherCandidates (lines : List Chars) (curK allK : List Chars) (i : Nat)
    (line : Chars) : List ℚ :=
  findAllNumbers line ++ lookaheadAux lines curK allK (i + 1) 6

/- Index of the first line hit by one of the current keywords
(src/app.py lines 274-277). -/
def findHitIdx (curK : List Chars) : List Chars → Option Nat
  | [] => none
  | l :: rest =>
    if curK.any (fun k => keywordHit (upperStr l) k) then some 0
    else (findHitIdx curK rest).map (fun i => i + 1)

def gkLEYK : Chars := [Char.ofNat 0x39B, Char.ofNat 0x395, Char.ofNat 0x3A5,
  Char.ofNat 0x39A]

def gkERYTH : Chars := [Char.ofNat 0x395, Char.ofNat 0x3A1, Char.ofNat 0x3A5,
  Char.ofNat 0x398]

def gkAIMOSF : Chars := [Char.ofNat 0x391, Char.ofNat 0x399, Char.ofNat 0x39C,
  Char.ofNat 0x39F, Char.ofNat 0x3A3, Char.ofNat 0x3A6]

def gkAIMATOK : Chars := [Char.ofNat 0x391, Char.ofNat 0x399, Char.ofNat 0x39C,
  Char.ofNat 0x391, Char.ofNat 0x3A4, Char.ofNat 0x39F, Char.ofNat 0x39A]

def gkAIMOPET : Chars := [Char.ofNat 0x391, Char.ofNat 0x399, Char.ofNat 0x39C,
  Char.ofNat 0x39F, Char.ofNat 0x3A0, Char.ofNat 0x395, Char.ofNat 0x3A4]

/- `abs(v - round(v)) < 1e-6` (src/app.py line 240): the distance from `v`
to the nearest integer is below 1e-6.  Stated on the numerator/denominator
so that it evaluates by `decide`; the theorem `nearIntCheck_eq` below proves
it equal to `|v - round v| < 1/1000000`.  (Python's banker's rounding and
`round` differ only at ties, where the distance is 1/2 on both sides.) -/
def nearIntCheck (v : ℚ) : Bool :=
  let r := v.num % (v.den : ℤ)
  decide (1000000 * min r ((v.den : ℤ) - r) < (v.den : ℤ))

/- `pick_best_value` (src/app.py lines 208-249).  The Python
`[v for v in values if v is not None]` filter is the identity here because
candidates are rationals.  Non-integer range bounds are written with
`mkRat` at their exact decimal value (0.1, 0.001); `.0` bounds are written
as integers. -/
def pickBestValue (metricName : Chars) (values : List ℚ) : Option ℚ :=
  let m := upperStr metricName
  match values with
  | [] => none
  | _ :: _ =>
    if strIn ("WBC".toList) m || strIn gkLEYK m then
      (values.filter (fun v => decide (mkRat 1 10 ≤ v ∧ v ≤ 30))).head?
    else if strIn ("RBC".toList) m || strIn gkERYTH m then
      (values.filter (fun v => decide (1 ≤ v ∧ v ≤ 8))).head?
    else if strIn ("HGB".toList) m || strIn gkAIMOSF m then
      (values.filter (fun v => decide (5 ≤ v ∧ v ≤ 25))).head?
    else if strIn ("HCT".toList) m || strIn gkAIMATOK m then
      (values.filter (fun v => decide (10 ≤ v ∧ v ≤ 70))).head?
    else if strIn ("PLT".toList) m || strIn gkAIMOPET m ||
        strIn ("PLATE".toList) m then
      let vals := values.filter (fun v => decide (10 ≤ v ∧ v ≤ 2000))
      let ints := vals.filter nearIntCheck
      match ints with
      | x :: _ => some x
      | [] => vals.head?
    else if decide (m = "MCV".toList) || decide (m = "MCH".toList) ||
        decide (m = "MCHC".toList) || decide (m = "RDW".toList) ||
        decide (m = "MPV".toList) || decide (m = "PCT".toList) ||
        decide (m = "PDW".toList) then
      (values.filter (fun v => decide (mkRat 1 1000 ≤ v ∧ v ≤ 1000))).head?
    else values.head?

/- The value picked at the first keyword-matched line, before the year
filter (src/app.py lines 274-301). -/
def rawPick (lines : List Chars) (allK : List Chars) (name : Chars)
    (kws : List Chars) : Option ℚ :=
  match findHitIdx (currentKws kws) lines with
  | none => none
  | some i =>
    pickBestValue name (gatherCandidates lines (currentKws kws) allK i
      (lines.getD i []))

/- Year blocking (src/app.py lines 304-307). -/
def yearBlock (name : Chars) (v : ℚ) : Option ℚ :=
  if decide (1990 < v) && decide (v < 2030) &&
      !(strIn ("B12".toList) (upperStr name)) then none
  else some v

/- The final value recorded for one metric (or `none`): first matched line,
gathered candidates, `pick_best_value`, year blocking. -/
def findMetricValue (lines : List Chars) (allK : List Chars) (name : Chars)
    (kws : List Chars) : Option ℚ :=
  (rawPick lines allK name kws).bind (yearBlock name)

/- Line preprocessing of both parsers (src/app.py lines 261-262 and
339-340): split, normalize, drop empties. -/
def prepLines (text : Chars) : List Chars :=
  ((splitOnNl text).map normalizeLine).filter (fun l => !(l = []))

/- `parse_google_text_deep` (src/app.py lines 251-326), results dictionary
as an association list in insertion order.  The debug table is UI-only and
not modelled. -/
def parseGoogleTextDeep (text : Chars) (sel : List (Chars × List Chars)) :
    List (Chars × ℚ) :=
  let lines := prepLines text
  let allK := buildAllKeywords sel
  sel.foldl (fun acc p =>
    match findMetricValue lines allK p.1 p.2 with
    | some v => acc ++ [(p.1, v)]
    | none => acc) []

/- Dictionary lookup on the association list. -/
def assocFind (l : List (Chars × ℚ)) (k : Chars) : Option ℚ :=
  match l with
  | [] => none
  | (a, v) :: rest => if a = k then some v else assocFind rest k

def muChar : Char := Char.ofNat 0x3BC

/- The UNIT_RX alternatives (src/app.py line 331), in the pattern's order. -/
def unitAlternatives : List Chars :=
  ["mg/dL".toList, "g/dL".toList, "mmol/L".toList,
   muChar :: "mol/L".toList, "umol/L".toList, "IU/L".toList, "U/L".toList,
   "mIU/L".toList, "ng/mL".toList, "pg/mL".toList, "%".toList, "fL".toList,
   "pg".toList, "10^3/".toList ++ [muChar] ++ "L".toList, "10^3/uL".toList,
   "10^6/".toList ++ [muChar] ++ "L".toList, "10^6/uL".toList,
   "/".toList ++ [muChar] ++ "L".toList, "/uL".toList,
   "cells/".toList ++ [muChar] ++ "L".toList, "cfu/mL".toList,
   "CFU/mL".toList]

/- Case-insensitive literal prefix match (`re.IGNORECASE`). -/
def matchCI (pat s : Chars) : Bool :=
  decide (upperStr (s.take pat.length) = upperStr pat)

def allSpace (s : Chars) : Bool := s.all pyIsSpace

/- At a fixed whitespace offset, try the unit alternatives in order, then
the empty unit, each followed by `\s*$`.  Returns the captured unit text. -/
def tryAtOffset (r : Chars) : Option Chars :=
  match unitAlternatives.find?
      (fun alt => matchCI alt r && allSpace (r.drop alt.length)) with
  | some alt => some (r.take alt.length)
  | none => if allSpace r then some [] else none

/- `[n, n-1, ..., 0]` as used by the greedy `\s*` between number and unit. -/
def tailMatch (rest : Chars) : Option Chars :=
  (descRange0 (rest.takeWhile pyIsSpace).length).findSome?
    (fun i => tryAtOffset (rest.drop i))

/- The anchored row regex of `auto_extract_results` (src/app.py lines
350-354): `^(.*?)(NUM)(?:\s*(UNIT))?\s*$`.  The lazy `(.*?)` tries start
positions left to right; at each position the numeric candidates are tried
in backtracking order against the unit/whitespace tail.  Returns
(label, number text, unit text). -/
def autoMatch (line : Chars) : Option (Chars × Chars × Chars) :=
  (List.range (line.length + 1)).findSome? (fun p =>
    (numCandidatesAt (line.drop p)).findSome? (fun c =>
      (tailMatch c.2).map (fun u => (line.take p, c.1, u))))

/- One attempt of `re.search(r"\d{1,2}/\d{1,2}/\d{2,4}", ...)` at the head
of the string (any quantifier choice). -/
def dateAtHead (s : Chars) : Bool :=
  [2, 1].any (fun i =>
    decide ((s.take i).length = i) && (s.take i).all Char.isDigit &&
    decide ((s.drop i).take 1 = ['/']) &&
    [2, 1].any (fun j =>
      let t := (s.drop i).drop 1
      decide ((t.take j).length = j) && (t.take j).all Char.isDigit &&
      decide ((t.drop j).take 1 = ['/']) &&
      [4, 3, 2].any (fun k =>
        let u := (t.drop j).drop 1
        decide ((u.take k).length = k) && (u.take k).all Char.isDigit)))

/- Existence semantics of the date `re.search` (src/app.py line 347). -/
def dateSearch : Chars → Bool
  | [] => false
  | c :: rest => dateAtHead (c :: rest) || dateSearch rest

/- One extracted row of `auto_extract_results`. -/
structure AutoRow where
  test : Chars
  value : ℚ
  unit : Chars
  rawLine : Chars
deriving DecidableEq, Repr

/- The row-collecting loop of `auto_extract_results` (src/app.py lines
342-374): each `continue` is a `none`. -/
def autoRowsOf (text : Chars) : List AutoRow :=
  (prepLines text).filterMap (fun line =>
    if line.length < 4 then none
    else if dateSearch line then none
    else
      match autoMatch line with
      | none => none
      | some (lbl, raw, u) =>
        let label := pyStripOn (" .:-".toList) lbl
        if label = [] ∨ label.length < 2 then none
        else
          match cleanNumber raw with
          | none => none
          | some v => some ⟨label, v, pyStrip u, line⟩)

/- `DataFrame.drop_duplicates`: keep the first occurrence of each row.
`seen` accumulates the rows already emitted. -/
def dedupSeen (seen : List AutoRow) : List AutoRow → List AutoRow
  | [] => []
  | a :: rest =>
    if seen.contains a then dedupSeen seen rest
    else a :: dedupSeen (a :: seen) rest

def dedupKeepFirst (l : List AutoRow) : List AutoRow := dedupSeen [] l

/- `auto_extract_results` (src/app.py lines 333-381). -/
def autoExtractResults (text : Chars) : List AutoRow :=
  dedupKeepFirst (autoRowsOf text)

/- Specification predicate for claim C9: what one extracted row promises
about its origin.  The decomposition names the label, the numeric token,
the two whitespace stretches and the optional unit of the matched line. -/
def autoRowSpec (text : Chars) (row : AutoRow) : Prop :=
  row.rawLine ∈ prepLines text ∧ 4 ≤ row.rawLine.length ∧
  dateSearch row.rawLine = false ∧ 2 ≤ row.test.length ∧
  ∃ lbl tok ws1 u ws2,
    row.rawLine = lbl ++ tok ++ ws1 ++ u ++ ws2 ∧
    row.test = pyStripOn (" .:-".toList) lbl ∧
    cleanNumber tok = some row.value ∧
    row.unit = pyStrip u ∧
    (∀ c ∈ ws1, pyIsSpace c = true) ∧ (∀ c ∈ ws2, pyIsSpace c = true) ∧
    (u = [] ∨ ∃ alt ∈ unitAlternatives, upperStr u = upperStr alt)

/- The per-file try/except of the START loop (src/app.py lines 595-622).
The loop body (OCR, date extraction, parsing) calls external services and
is abstracted as a fallible function `process`; the control flow — report
the error and continue, keep earlier rows — is modelled exactly. -/
def startLoop {F D E : Type} (process : F → Except E D) :
    List F → List D × List E
  | [] => ([], [])
  | f :: rest =>
    match process f, startLoop process rest with
    | .ok d, (ds, es) => (d :: ds, es)
    | .error e, (ds, es) => (ds, e :: es)

/- `df[[col_x, col_y]].apply(pd.to_numeric, errors="coerce").dropna()`
(src/app.py line 451): rows are pairs of coerced column values, `dropna`
keeps those where both are numeric. -/
def cleanPairs (rows : List (Option ℚ × Option ℚ)) : List (ℚ × ℚ) :=
  rows.filterMap (fun p =>
    match p with
    | (some a, some b) => some (a, b)
    | _ => none)

/- `series.std() == 0`: the sample standard deviation of three or more
values is zero exactly when they are all equal. -/
def allEqualQ : List ℚ → Bool
  | [] => true
  | v :: rest => rest.all (fun w => decide (w = v))

def msgNeed3 (n : Nat) : Chars :=
  "Need 3+ records (found ".toList ++ (Nat.repr n).toList ++ ").".toList

def msgConst : Chars := "Constant value.".toList

def msgErr (e : Chars) : Chars := "Error: ".toList ++ e

def msgReport : Chars := "Stats report".toList

/- `run_statistics` (src/app.py lines 450-476).  The Pearson/OLS
computation is a call into scipy/statsmodels and is abstracted as the
fallible function `compute`; the result triple (message, clean data, model)
mirrors the Python return values with `None` as `none`. -/
def runStatistics {R : Type} (compute : List (ℚ × ℚ) → Except Chars R)
    (rows : List (Option ℚ × Option ℚ)) :
    Chars × Option (List (ℚ × ℚ)) × Option R :=
  let c := cleanPairs rows
  if c.length < 3 then (msgNeed3 c.length, none, none)
  else if allEqualQ (c.map Prod.fst) || allEqualQ (c.map Prod.snd) then
    (msgConst, none, none)
  else
    match compute c with
    | .error e => (msgErr e, none, none)
    | .ok r => (msgReport, some c, some r)


/-
Theorems.  General helper lemmas first, then one theorem per claim
(C1..C10), each with its witness where the statement carries hypotheses.
-/

theorem strIn_iff (sub l : Chars) : strIn sub l = true ↔ sub <:+: l := by
  induction l with
  | nil =>
    simp [strIn, List.isPrefixOf_iff_prefix, List.prefix_nil, List.infix_nil]
  | cons c rest ih =>
    simp only [strIn, Bool.or_eq_true, List.isPrefixOf_iff_prefix, ih,
      List.infix_cons_iff]

theorem upperStr_infix_of_strIn {sub l : Chars} (h : strIn sub l = true) :
    upperStr sub <:+: upperStr l :=
  List.IsInfix.map upperChar ((strIn_iff sub l).mp h)

theorem strIn_upperStr_of_strIn {sub l : Chars} (h : strIn sub l = true)
    (hfix : upperStr sub = sub) : strIn sub (upperStr l) = true := by
  rw [strIn_iff]
  have := upperStr_infix_of_strIn h
  rwa [hfix] at this

/-- C1: the numeric-string normalizer converts Greek and international
separator conventions as the spec's examples state:
`clean_number("12,5") = 12.5` and `clean_number("1.234,56") = 1234.56`. -/
theorem claim1 :
    cleanNumber ("12,5".toList) = some (12.5 : ℚ) ∧
    cleanNumber ("1.234,56".toList) = some (1234.56 : ℚ) := by
  constructor
  · rw [show (12.5 : ℚ) = mkRat 25 2 by rw [Rat.mkRat_eq_div]; norm_num]
    decide
  · rw [show (1234.56 : ℚ) = mkRat 30864 25 by rw [Rat.mkRat_eq_div]; norm_num]
    decide

theorem nearIntCheck_eq (v : ℚ) :
    nearIntCheck v = decide (|v - (round v : ℚ)| < 1 / 1000000) := by
  unfold nearIntCheck
  rw [decide_eq_decide]
  have hdQ : (0 : ℚ) < (v.den : ℚ) := by exact_mod_cast v.pos
  have hfr : Int.fract v = ((v.num % (v.den : ℤ) : ℤ) : ℚ) / (v.den : ℚ) := by
    rw [eq_div_iff (ne_of_gt hdQ), Int.fract, sub_mul, Rat.mul_den_eq_num,
      Int.emod_def, Rat.floor_def]
    push_cast
    ring
  rw [abs_sub_round_eq_min, hfr]
  have h1m : (1 : ℚ) - ((v.num % (v.den : ℤ) : ℤ) : ℚ) / (v.den : ℚ) =
      (((v.den : ℤ) - v.num % (v.den : ℤ) : ℤ) : ℚ) / (v.den : ℚ) := by
    push_cast
    field_simp
  rw [h1m, min_div_div_right (le_of_lt hdQ)]
  rw [div_lt_div_iff₀ hdQ (by norm_num : (0:ℚ) < 1000000), one_mul, mul_comm]
  constructor <;> intro h <;> exact_mod_cast h

/-- C2 (counterexample): the claim asserts that `pick_best_value` on any
metric whose name contains "PLT" returns the first/best candidate in
[10, 2000]; but branch order makes a name containing "WBC" take the WBC
branch first, so "WBCPLT" with sole candidate 500 (inside [10, 2000])
yields None instead. -/
theorem claim2_counterexample :
    strIn ("PLT".toList) ("WBCPLT".toList) = true ∧
    ((10 : ℚ) ≤ 500 ∧ (500 : ℚ) ≤ 2000) ∧
    pickBestValue ("WBCPLT".toList) [500] = none :=
  ⟨by decide, ⟨by decide, by decide⟩, by decide⟩

/-- C2 (amended): for a metric whose name contains "WBC", `pick_best_value`
returns the first candidate in [0.1, 30] (None when there is none); for a
metric whose name contains "PLT" and whose uppercased name contains none of
the keywords of the earlier branches (WBC, ΛΕΥΚ, RBC, ΕΡΥΘ, HGB, ΑΙΜΟΣΦ,
HCT, ΑΙΜΑΤΟΚ), it returns the first candidate in [10, 2000] that is within
1e-6 of an integer if one exists, otherwise the first candidate in
[10, 2000], and None when no candidate lies in that range. -/
theorem claim2 :
    (∀ (name : Chars) (values : List ℚ), strIn ("WBC".toList) name = true →
      pickBestValue name values =
        (values.filter (fun v => decide ((0.1 : ℚ) ≤ v ∧ v ≤ 30))).head?) ∧
    (∀ (name : Chars) (values : List ℚ), strIn ("PLT".toList) name = true →
      strIn ("WBC".toList) (upperStr name) = false →
      strIn gkLEYK (upperStr name) = false →
      strIn ("RBC".toList) (upperStr name) = false →
      strIn gkERYTH (upperStr name) = false →
      strIn ("HGB".toList) (upperStr name) = false →
      strIn gkAIMOSF (upperStr name) = false →
      strIn ("HCT".toList) (upperStr name) = false →
      strIn gkAIMATOK (upperStr name) = false →
      pickBestValue name values =
        Option.or
          (((values.filter (fun v => decide ((10 : ℚ) ≤ v ∧ v ≤ 2000))).filter
            (fun v => decide (|v - (round v : ℚ)| < 1 / 1000000))).head?)
          ((values.filter (fun v => decide ((10 : ℚ) ≤ v ∧ v ≤ 2000))).head?)) := by
  constructor
  · intro name values h
    have h1 : strIn ("WBC".toList) (upperStr name) = true :=
      strIn_upperStr_of_strIn h (by decide)
    rw [show (fun v : ℚ => decide ((0.1 : ℚ) ≤ v ∧ v ≤ 30)) =
        (fun v : ℚ => decide (mkRat 1 10 ≤ v ∧ v ≤ 30)) from by
      rw [show (0.1 : ℚ) = mkRat 1 10 from by rw [Rat.mkRat_eq_div]; norm_num]]
    cases values with
    | nil => rfl
    | cons a rest =>
      simp only [pickBestValue, h1, Bool.true_or, if_true]
  · intro name values h hb1 hb2 hb3 hb4 hb5 hb6 hb7 hb8
    have h1 : strIn ("PLT".toList) (upperStr name) = true :=
      strIn_upperStr_of_strIn h (by decide)
    rw [show (fun v : ℚ => decide (|v - (round v : ℚ)| < 1 / 1000000)) =
        nearIntCheck from funext fun v => (nearIntCheck_eq v).symm]
    cases values with
    | nil => rfl
    | cons a rest =>
      simp only [pickBestValue, h1, hb1, hb2, hb3, hb4, hb5, hb6, hb7, hb8,
        Bool.false_or, Bool.true_or, Bool.or_false, Bool.false_eq_true,
        if_false, if_true, ite_false, ite_true]
      cases hI : ((a :: rest).filter
          (fun v => decide ((10:ℚ) ≤ v ∧ v ≤ 2000))).filter nearIntCheck with
      | nil => simp [hI, Option.or]
      | cons x xs => simp [hI, Option.or]

/-- Witness for C2: concrete instances of both amended statements. -/
theorem claim2_witness :
    pickBestValue ("WBC".toList) [50, 12.5] =
      (([50, 12.5] : List ℚ).filter
        (fun v => decide ((0.1 : ℚ) ≤ v ∧ v ≤ 30))).head? ∧
    pickBestValue ("PLT".toList) [11.5, 20] =
      Option.or
        (((([11.5, 20] : List ℚ).filter
            (fun v => decide ((10 : ℚ) ≤ v ∧ v ≤ 2000))).filter
          (fun v => decide (|v - (round v : ℚ)| < 1 / 1000000))).head?)
        ((([11.5, 20] : List ℚ).filter
          (fun v => decide ((10 : ℚ) ≤ v ∧ v ≤ 2000))).head?) :=
  ⟨claim2.1 ("WBC".toList) [50, 12.5] (by decide),
   claim2.2 ("PLT".toList) [11.5, 20] (by decide) (by decide) (by decide)
     (by decide) (by decide) (by decide) (by decide) (by decide) (by decide)⟩

theorem lookaheadAux_eq (lines curK allK : List Chars) :
    ∀ (fuel idx : Nat), lookaheadAux lines curK allK idx fuel =
      ((((lines.drop idx).take fuel).takeWhile
        (fun l => !stopsHere allK curK (upperStr l))).map findAllNumbers).flatten := by
  intro fuel
  induction fuel with
  | zero => intro idx; simp [lookaheadAux]
  | succ n ih =>
    intro idx
    cases h : lines[idx]? with
    | none =>
      have hlen : lines.length ≤ idx := List.getElem?_eq_none_iff.mp h
      rw [List.drop_eq_nil_of_le hlen]
      simp [lookaheadAux, h]
    | some nxt =>
      obtain ⟨hlt, hget⟩ := List.getElem?_eq_some.mp h
      rw [List.drop_eq_getElem_cons hlt, hget, List.take_succ_cons,
        List.takeWhile_cons]
      cases hs : stopsHere allK curK (upperStr nxt) with
      | true => simp [lookaheadAux, h, hs]
      | false => simp [lookaheadAux, h, hs, ih (idx + 1)]

/-- C3: when a metric's keyword matches line `i`, the candidate list is the
numbers of that line followed by the numbers of at most 6 following lines,
cut off at the first following line that contains a keyword of another
known metric (not an alias of the current one); numbers on and after the
stopping line are excluded. -/
theorem claim3 (lines : List Chars) (curK allK : List Chars) (i : Nat)
    (line : Chars) :
    gatherCandidates lines curK allK i line =
      findAllNumbers line ++
        ((((lines.drop (i + 1)).take 6).takeWhile
          (fun l => !stopsHere allK curK (upperStr l))).map
            findAllNumbers).flatten := by
  unfold gatherCandidates
  rw [lookaheadAux_eq lines curK allK 6 (i + 1)]

theorem startLoop_fst {F D E : Type} (process : F → Except E D) :
    ∀ l : List F, (startLoop process l).1 =
      l.filterMap (fun x => (process x).toOption) := by
  intro l
  induction l with
  | nil => rfl
  | cons f rest ih =>
    simp only [startLoop, List.filterMap_cons]
    cases hp : process f with
    | ok d =>
      simp only [hp, Except.toOption]
      simpa [Except.toOption] using ih
    | error e =>
      simp only [hp, Except.toOption]
      simpa [Except.toOption] using ih

theorem startLoop_snd {F D E : Type} (process : F → Except E D) :
    ∀ l : List F, (startLoop process l).2 =
      l.filterMap (fun x =>
        match process x with
        | .error e => some e
        | .ok _ => none) := by
  intro l
  induction l with
  | nil => rfl
  | cons f rest ih =>
    simp only [startLoop, List.filterMap_cons]
    cases hp : process f with
    | ok d => simp [hp, ← ih]
    | error e => simp [hp, ← ih]

/-- C6: file processing is error-contained per file: if processing one file
fails, its error message is reported and processing continues, keeping the
rows of all other files; the successful rows are exactly the successes of
the whole list, in order. -/
theorem claim6 {F D E : Type} (process : F → Except E D)
    (pre post : List F) (f : F) (e : E) (h : process f = .error e) :
    (startLoop process (pre ++ f :: post)).1 =
      (startLoop process pre).1 ++ (startLoop process post).1 ∧
    e ∈ (startLoop process (pre ++ f :: post)).2 ∧
    (startLoop process (pre ++ f :: post)).1 =
      (pre ++ f :: post).filterMap (fun x => (process x).toOption) := by
  refine ⟨?_, ?_, startLoop_fst process _⟩
  · rw [startLoop_fst, startLoop_fst, startLoop_fst, List.filterMap_append,
      List.filterMap_cons, h]
    rfl
  · rw [startLoop_snd, List.filterMap_append, List.filterMap_cons, h]
    simp

/-- Witness for C6: a three-file run whose middle file fails. -/
theorem claim6_witness :
    (startLoop (fun n : Nat => if n = 1 then Except.error 7 else Except.ok n)
        ([0] ++ 1 :: [2])).1 =
      (startLoop (fun n : Nat => if n = 1 then Except.error 7 else Except.ok n)
        [0]).1 ++
      (startLoop (fun n : Nat => if n = 1 then Except.error 7 else Except.ok n)
        [2]).1 ∧
    7 ∈ (startLoop (fun n : Nat => if n = 1 then Except.error 7 else Except.ok n)
        ([0] ++ 1 :: [2])).2 ∧
    (startLoop (fun n : Nat => if n = 1 then Except.error 7 else Except.ok n)
        ([0] ++ 1 :: [2])).1 =
      ([0] ++ 1 :: [2]).filterMap
        (fun x => ((fun n : Nat => if n = 1 then Except.error 7 else Except.ok n)
          x).toOption) :=
  claim6 (fun n : Nat => if n = 1 then Except.error 7 else Except.ok n)
    [0] [2] 1 7 rfl

/-- C10: run_statistics returns a warning with no data and no model when
fewer than 3 valid numeric pairs exist or a column is constant; a data set
and fitted model are produced only when at least 3 valid pairs exist and
both columns are non-constant. -/
theorem claim10 {R : Type} (compute : List (ℚ × ℚ) → Except Chars R)
    (rows : List (Option ℚ × Option ℚ)) :
    ((cleanPairs rows).length < 3 ∨
        allEqualQ ((cleanPairs rows).map Prod.fst) = true ∨
        allEqualQ ((cleanPairs rows).map Prod.snd) = true →
      (runStatistics compute rows).2.1 = none ∧
      (runStatistics compute rows).2.2 = none ∧
      ((runStatistics compute rows).1 = msgNeed3 (cleanPairs rows).length ∨
        (runStatistics compute rows).1 = msgConst)) ∧
    (∀ (d : List (ℚ × ℚ)) (r : R), (runStatistics compute rows).2.1 = some d →
      (runStatistics compute rows).2.2 = some r →
      3 ≤ (cleanPairs rows).length ∧
      allEqualQ ((cleanPairs rows).map Prod.fst) = false ∧
      allEqualQ ((cleanPairs rows).map Prod.snd) = false) := by
  unfold runStatistics
  by_cases h3 : (cleanPairs rows).length < 3
  · rw [if_pos h3]
    exact ⟨fun _ => ⟨rfl, rfl, Or.inl rfl⟩, fun d r hd => by cases hd⟩
  · rw [if_neg h3]
    by_cases hc : (allEqualQ ((cleanPairs rows).map Prod.fst) ||
        allEqualQ ((cleanPairs rows).map Prod.snd)) = true
    · rw [if_pos hc]
      exact ⟨fun _ => ⟨rfl, rfl, Or.inr rfl⟩, fun d r hd => by cases hd⟩
    · rw [if_neg hc]
      constructor
      · intro hdisj
        rcases hdisj with h | h | h
        · exact absurd h h3
        · exact absurd (Bool.or_eq_true _ _ |>.mpr (Or.inl h)) hc
        · exact absurd (Bool.or_eq_true _ _ |>.mpr (Or.inr h)) hc
      · intro d r hd hr
        refine ⟨Nat.le_of_not_lt h3, ?_, ?_⟩
        · cases hfst : allEqualQ ((cleanPairs rows).map Prod.fst) with
          | false => rfl
          | true => exact absurd ((Bool.or_eq_true _ _).mpr (Or.inl hfst)) hc
        · cases hsnd : allEqualQ ((cleanPairs rows).map Prod.snd) with
          | false => rfl
          | true => exact absurd ((Bool.or_eq_true _ _).mpr (Or.inr hsnd)) hc

/-- Witness for C10: a single valid pair is fewer than 3 records, so no
data and no model are produced. -/
theorem claim10_witness :
    (runStatistics (fun _ => Except.ok (0 : ℚ))
        [((some 1 : Option ℚ), (some 1 : Option ℚ))]).2.1 = none ∧
    (runStatistics (fun _ => Except.ok (0 : ℚ))
        [((some 1 : Option ℚ), (some 1 : Option ℚ))]).2.2 = none ∧
    ((runStatistics (fun _ => Except.ok (0 : ℚ))
        [((some 1 : Option ℚ), (some 1 : Option ℚ))]).1 =
      msgNeed3 (cleanPairs [((some 1 : Option ℚ), (some 1 : Option ℚ))]).length ∨
     (runStatistics (fun _ => Except.ok (0 : ℚ))
        [((some 1 : Option ℚ), (some 1 : Option ℚ))]).1 = msgConst) :=
  (claim10 (fun _ => Except.ok (0 : ℚ))
    [((some 1 : Option ℚ), (some 1 : Option ℚ))]).1 (Or.inl (by decide))

theorem foldl_results_eq (g : Chars × List Chars → Option ℚ) :
    ∀ (sel : List (Chars × List Chars)) (acc : List (Chars × ℚ)),
      sel.foldl (fun acc p =>
        match g p with
        | some v => acc ++ [(p.1, v)]
        | none => acc) acc =
      acc ++ sel.filterMap (fun p => (g p).map (fun v => (p.1, v))) := by
  intro sel
  induction sel with
  | nil => intro acc; simp
  | cons p rest ih =>
    intro acc
    simp only [List.foldl_cons, List.filterMap_cons]
    cases hg : g p with
    | none => simp only [hg, Option.map_none']; exact ih acc
    | some v =>
      simp only [hg, Option.map_some']
      rw [ih (acc ++ [(p.1, v)])]
      simp

theorem parseDeep_eq_filterMap (text : Chars) (sel : List (Chars × List Chars)) :
    parseGoogleTextDeep text sel =
      sel.filterMap (fun p =>
        (findMetricValue (prepLines text) (buildAllKeywords sel) p.1 p.2).map
          (fun v => (p.1, v))) := by
  unfold parseGoogleTextDeep
  rw [foldl_results_eq (fun p =>
    findMetricValue (prepLines text) (buildAllKeywords sel) p.1 p.2) sel []]
  rfl

theorem assocFind_none_of_not_mem :
    ∀ (l : List (Chars × ℚ)) (name : Chars), name ∉ l.map Prod.fst →
      assocFind l name = none := by
  intro l
  induction l with
  | nil => intro name _; rfl
  | cons p rest ih =>
    obtain ⟨a, w⟩ := p
    intro name h
    simp only [List.map_cons, List.mem_cons, not_or] at h
    unfold assocFind
    rw [if_neg (fun he => h.1 he.symm)]
    exact ih name h.2

theorem keys_filterMap_subset (g : Chars × List Chars → Option ℚ)
    (sel : List (Chars × List Chars)) (name : Chars)
    (h : name ∉ sel.map Prod.fst) :
    name ∉ (sel.filterMap (fun p => (g p).map (fun v => (p.1, v)))).map
      Prod.fst := by
  intro hmem
  apply h
  simp only [List.mem_map] at hmem ⊢
  obtain ⟨q, hq, hqname⟩ := hmem
  obtain ⟨p, hp, hgp⟩ := List.mem_filterMap.mp hq
  cases hg : g p with
  | none => rw [hg] at hgp; cases hgp
  | some v =>
    rw [hg, Option.map_some'] at hgp
    obtain rfl := Option.some.inj hgp
    exact ⟨p, hp, hqname⟩

theorem assocFind_filterMap (g : Chars × List Chars → Option ℚ) :
    ∀ (sel : List (Chars × List Chars)) (name : Chars) (kws : List Chars),
      (sel.map Prod.fst).Nodup → (name, kws) ∈ sel →
      assocFind (sel.filterMap (fun p => (g p).map (fun v => (p.1, v)))) name =
        g (name, kws) := by
  intro sel
  induction sel with
  | nil => intro name kws _ hmem; cases hmem
  | cons p rest ih =>
    intro name kws hnd hmem
    simp only [List.map_cons, List.nodup_cons] at hnd
    rw [List.filterMap_cons]
    rcases List.mem_cons.mp hmem with heq | hmem2
    · cases hg : g p with
      | none =>
        simp only [Option.map_none']
        have hnm : name ∉ rest.map Prod.fst := by
          rw [show name = p.1 from by rw [← heq]]
          exact hnd.1
        rw [assocFind_none_of_not_mem _ name
          (keys_filterMap_subset g rest name hnm)]
        rw [← heq] at hg
        exact hg.symm
      | some v =>
        simp only [Option.map_some']
        unfold assocFind
        rw [if_pos (show p.1 = name from by rw [← heq])]
        rw [← heq] at hg
        exact hg.symm
    · have hne : p.1 ≠ name := by
        intro he
        apply hnd.1
        rw [he]
        exact List.mem_map.mpr ⟨(name, kws), hmem2, rfl⟩
      cases hg : g p with
      | none =>
        simp only [Option.map_none']
        exact ih name kws hnd.2 hmem2
      | some v =>
        simp only [Option.map_some']
        unfold assocFind
        rw [if_neg hne]
        exact ih name kws hnd.2 hmem2

theorem assocFind_parse (text : Chars) (sel : List (Chars × List Chars))
    (name : Chars) (kws : List Chars) (hnd : (sel.map Prod.fst).Nodup)
    (hmem : (name, kws) ∈ sel) :
    assocFind (parseGoogleTextDeep text sel) name =
      findMetricValue (prepLines text) (buildAllKeywords sel) name kws := by
  rw [parseDeep_eq_filterMap]
  exact assocFind_filterMap
    (fun p => findMetricValue (prepLines text) (buildAllKeywords sel) p.1 p.2)
    sel name kws hnd hmem

theorem assocFind_ne_none_of_mem :
    ∀ (l : List (Chars × ℚ)) (k : Chars) (v : ℚ), (k, v) ∈ l →
      assocFind l k ≠ none := by
  intro l
  induction l with
  | nil => intro k v hm; cases hm
  | cons p rest ih =>
    obtain ⟨a, w⟩ := p
    intro k v hm
    unfold assocFind
    rcases List.mem_cons.mp hm with heq | hm2
    · rw [if_pos (congrArg Prod.fst heq.symm)]
      simp
    · by_cases he : a = k
      · rw [if_pos he]; simp
      · rw [if_neg he]; exact ih k v hm2

theorem mem_of_assocFind_some :
    ∀ (l : List (Chars × ℚ)) (k : Chars) (v : ℚ), assocFind l k = some v →
      (k, v) ∈ l := by
  intro l
  induction l with
  | nil => intro k v h; cases h
  | cons p rest ih =>
    obtain ⟨a, w⟩ := p
    intro k v h
    unfold assocFind at h
    by_cases he : a = k
    · rw [if_pos he] at h
      obtain rfl := Option.some.inj h
      exact List.mem_cons.mpr (Or.inl (by rw [he]))
    · rw [if_neg he] at h
      exact List.mem_cons.mpr (Or.inr (ih k v h))

/-- C5: the results dictionary is a sparse mapping present-only-if-found:
under distinct metric names, the entry of a selected metric equals its
(always non-None) found value, and a key is present exactly when a value
was found; absent metrics are simply missing (values are rationals, so no
metric ever maps to None or a blank). -/
theorem claim5 (text : Chars) (sel : List (Chars × List Chars))
    (name : Chars) (kws : List Chars) (hnd : (sel.map Prod.fst).Nodup)
    (hmem : (name, kws) ∈ sel) :
    assocFind (parseGoogleTextDeep text sel) name =
      findMetricValue (prepLines text) (buildAllKeywords sel) name kws ∧
    ((∃ v, (name, v) ∈ parseGoogleTextDeep text sel) ↔
      findMetricValue (prepLines text) (buildAllKeywords sel) name kws ≠
        none) := by
  have h := assocFind_parse text sel name kws hnd hmem
  refine ⟨h, ?_, ?_⟩
  · rintro ⟨v, hv⟩
    rw [← h]
    exact fun hne => assocFind_ne_none_of_mem _ name v hv hne
  · intro hne
    cases hf : findMetricValue (prepLines text) (buildAllKeywords sel) name
        kws with
    | none => exact absurd hf hne
    | some v =>
      exact ⟨v, mem_of_assocFind_some _ name v (by rw [h, hf])⟩

/-- Witness for C5: a one-metric selection over a one-line text. -/
theorem claim5_witness :
    assocFind (parseGoogleTextDeep ("WBC 5.2".toList)
        [("WBC".toList, ["WBC".toList])]) ("WBC".toList) =
      findMetricValue (prepLines ("WBC 5.2".toList))
        (buildAllKeywords [("WBC".toList, ["WBC".toList])]) ("WBC".toList)
        ["WBC".toList] ∧
    ((∃ v, (("WBC".toList, v) : Chars × ℚ) ∈ parseGoogleTextDeep
        ("WBC 5.2".toList) [("WBC".toList, ["WBC".toList])]) ↔
      findMetricValue (prepLines ("WBC 5.2".toList))
        (buildAllKeywords [("WBC".toList, ["WBC".toList])]) ("WBC".toList)
        ["WBC".toList] ≠ none) :=
  claim5 ("WBC 5.2".toList) [("WBC".toList, ["WBC".toList])] ("WBC".toList)
    ["WBC".toList] (by decide) (by decide)

/-- C8: year blocking: if the value picked at the first matched line lies
strictly between 1990 and 2030 then a metric whose uppercased name does not
contain "B12" is absent from the results, while one whose uppercased name
contains "B12" keeps the value. -/
theorem claim8 (text : Chars) (sel : List (Chars × List Chars))
    (name : Chars) (kws : List Chars) (v : ℚ)
    (hnd : (sel.map Prod.fst).Nodup) (hmem : (name, kws) ∈ sel)
    (hpick : rawPick (prepLines text) (buildAllKeywords sel) name kws =
      some v)
    (hy : 1990 < v ∧ v < 2030) :
    (strIn ("B12".toList) (upperStr name) = false →
      assocFind (parseGoogleTextDeep text sel) name = none) ∧
    (strIn ("B12".toList) (upperStr name) = true →
      assocFind (parseGoogleTextDeep text sel) name = some v) := by
  have h := assocFind_parse text sel name kws hnd hmem
  have hd1 : decide (1990 < v) = true := decide_eq_true hy.1
  have hd2 : decide (v < 2030) = true := decide_eq_true hy.2
  constructor
  · intro hb
    rw [h]
    unfold findMetricValue
    rw [hpick]
    show yearBlock name v = none
    unfold yearBlock
    rw [hd1, hd2, hb]
    rfl
  · intro hb
    rw [h]
    unfold findMetricValue
    rw [hpick]
    show yearBlock name v = some v
    unfold yearBlock
    rw [hd1, hd2, hb]
    rfl

/-- Witness for C8: the metric "A" picks 1995 from "A 1.995,0" and is
year-blocked out of the results. -/
theorem claim8_witness :
    assocFind (parseGoogleTextDeep ("A 1.995,0".toList)
      [("A".toList, ["A".toList])]) ("A".toList) = none :=
  (claim8 ("A 1.995,0".toList) [("A".toList, ["A".toList])] ("A".toList)
    ["A".toList] 1995 (by decide) (by decide) (by decide) (by decide)).1
    (by decide)

theorem toNat_ofNat (n : Nat) (h : n < 55296) : (Char.ofNat n).toNat = n := by
  have hv : n.isValidChar := Or.inl h
  simp only [Char.ofNat, hv, dif_pos]
  rfl

theorem pyIsSpace_false (x : Char) (h : 14 ≤ x.toNat ∧ x.toNat ≠ 32) :
    pyIsSpace x = false := by
  unfold pyIsSpace
  simp only [Bool.or_eq_false_iff, decide_eq_false_iff_not]
  omega

theorem pyIsSpace_upperChar (c : Char) :
    pyIsSpace (upperChar c) = pyIsSpace c := by
  unfold upperChar
  dsimp only
  split_ifs with h1 h2 h3 h4 h5 h6 h7 h8 h9 h10
  · rw [pyIsSpace_false _ (by rw [toNat_ofNat _ (by omega)]; omega),
      pyIsSpace_false _ (by omega)]
  · rw [pyIsSpace_false _ (by rw [toNat_ofNat _ (by omega)]; omega),
      pyIsSpace_false _ (by omega)]
  · rw [pyIsSpace_false _ (by rw [toNat_ofNat _ (by omega)]; omega),
      pyIsSpace_false _ (by omega)]
  · rw [pyIsSpace_false _ (by rw [toNat_ofNat _ (by omega)]; omega),
      pyIsSpace_false _ (by omega)]
  · rw [pyIsSpace_false _ (by rw [toNat_ofNat _ (by omega)]; omega),
      pyIsSpace_false _ (by omega)]
  · rw [pyIsSpace_false _ (by rw [toNat_ofNat _ (by omega)]; omega),
      pyIsSpace_false _ (by omega)]
  · rw [pyIsSpace_false _ (by rw [toNat_ofNat _ (by omega)]; omega),
      pyIsSpace_false _ (by omega)]
  · rw [pyIsSpace_false _ (by rw [toNat_ofNat _ (by omega)]; omega),
      pyIsSpace_false _ (by omega)]
  · rw [pyIsSpace_false _ (by rw [toNat_ofNat _ (by omega)]; omega),
      pyIsSpace_false _ (by omega)]
  · rw [pyIsSpace_false _ (by rw [toNat_ofNat _ (by omega)]; omega),
      pyIsSpace_false _ (by omega)]
  · rfl

theorem tailOk_iff (post : Chars) :
    tailOk post = true ↔ ∀ c, post.head? = some c → isWordUpper c = false := by
  cases post with
  | nil => simp [tailOk]
  | cons c rest => simp [tailOk]

theorem atStartHit_iff (l k : Chars) :
    atStartHit l k = true ↔ ∃ post, l = k ++ post ∧ tailOk post = true := by
  unfold atStartHit
  rw [Bool.and_eq_true, List.isPrefixOf_iff_prefix]
  constructor
  · rintro ⟨⟨t, ht⟩, h2⟩
    refine ⟨t, ht.symm, ?_⟩
    rwa [← ht, List.drop_left] at h2
  · rintro ⟨post, rfl, h2⟩
    exact ⟨⟨post, rfl⟩, by rwa [List.drop_left]⟩

theorem midHit_iff (k : Chars) : ∀ l : Chars,
    midHit k l = true ↔ ∃ pre c post, l = pre ++ c :: (k ++ post) ∧
      isWordUpper c = false ∧ tailOk post = true := by
  intro l
  induction l with
  | nil =>
    constructor
    · intro h; cases h
    · rintro ⟨pre, c, post, h, _, _⟩
      exact absurd h (by simp)
  | cons c0 rest ih =>
    simp only [midHit, Bool.or_eq_true, Bool.and_eq_true, ih]
    constructor
    · rintro (⟨⟨h1, h2⟩, h3⟩ | ⟨pre, c, post, rfl, hc, hpost⟩)
      · obtain ⟨t, ht⟩ := List.isPrefixOf_iff_prefix.mp h2
        refine ⟨[], c0, rest.drop k.length, ?_, by simpa using h1, h3⟩
        rw [List.nil_append, ← ht, List.drop_left]
      · exact ⟨c0 :: pre, c, post, rfl, hc, hpost⟩
    · rintro ⟨pre, c, post, heq, hc, hpost⟩
      cases pre with
      | nil =>
        simp only [List.nil_append, List.cons.injEq] at heq
        left
        obtain ⟨rfl, rfl⟩ := heq
        refine ⟨⟨by simpa using hc, ?_⟩, by rwa [List.drop_left]⟩
        exact List.isPrefixOf_iff_prefix.mpr ⟨post, rfl⟩
      | cons p ps =>
        simp only [List.cons_append, List.cons.injEq] at heq
        right
        exact ⟨ps, c, post, heq.2, hc, hpost⟩

theorem boundHit_iff (l k : Chars) :
    boundHit l k = true ↔ ∃ pre post, l = pre ++ k ++ post ∧
      (∀ c, pre.getLast? = some c → isWordUpper c = false) ∧
      (∀ c, post.head? = some c → isWordUpper c = false) := by
  unfold boundHit
  rw [Bool.or_eq_true, atStartHit_iff, midHit_iff]
  constructor
  · rintro (⟨post, rfl, hp⟩ | ⟨pre, c, post, rfl, hc, hp⟩)
    · exact ⟨[], post, by simp, by simp, (tailOk_iff post).mp hp⟩
    · refine ⟨pre ++ [c], post, by simp, ?_, (tailOk_iff post).mp hp⟩
      intro c' hc'
      rw [List.getLast?_concat] at hc'
      obtain rfl := Option.some.inj hc'
      exact hc
  · rintro ⟨pre, post, rfl, hpre, hpost⟩
    rcases List.eq_nil_or_concat pre with rfl | ⟨ps, c, rfl⟩
    · left
      exact ⟨post, by simp, (tailOk_iff post).mpr hpost⟩
    · right
      refine ⟨ps, c, post, by simp, ?_, (tailOk_iff post).mpr hpost⟩
      exact hpre c (by rw [List.concat_eq_append, List.getLast?_concat])

theorem dropWhile_eq_self_of_none (p : Char → Bool) (l : Chars)
    (h : ∀ c ∈ l, p c = false) : l.dropWhile p = l := by
  cases l with
  | nil => rfl
  | cons c rest =>
    rw [List.dropWhile_cons_of_neg]
    simp [h c (List.mem_cons_self c rest)]

theorem pyStrip_eq_self (l : Chars) (h : ∀ c ∈ l, pyIsSpace c = false) :
    pyStrip l = l := by
  unfold pyStrip
  rw [dropWhile_eq_self_of_none pyIsSpace l h,
    dropWhile_eq_self_of_none pyIsSpace l.reverse
      (fun c hc => h c (List.mem_reverse.mp hc)),
    List.reverse_reverse]

/-- C4: keyword matching is case-insensitive and word-boundary-ish: for a
nonempty whitespace-free keyword, `keyword_hit` on the uppercased line is
true exactly when the uppercased keyword occurs in the uppercased line
delimited on both sides by the line edge or a character outside A-Z, 0-9,
Greek Α-Ω (so a keyword never matches as a proper infix of a longer
alphanumeric word); and changing the letter case of the line or the
keyword never changes the result. -/
theorem claim4 (line kw : Chars) (hne : kw ≠ [])
    (hsp : ∀ c ∈ kw, pyIsSpace c = false) :
    (keywordHit (upperStr line) kw = true ↔
      ∃ pre post, upperStr line = pre ++ upperStr kw ++ post ∧
        (∀ c, pre.getLast? = some c → isWordUpper c = false) ∧
        (∀ c, post.head? = some c → isWordUpper c = false)) ∧
    (∀ line2 kw2, upperStr line2 = upperStr line →
      upperStr kw2 = upperStr kw →
      keywordHit (upperStr line2) kw2 = keywordHit (upperStr line) kw) := by
  have hupsp : ∀ c ∈ upperStr kw, pyIsSpace c = false := by
    intro c hc
    obtain ⟨d, hd, rfl⟩ := List.mem_map.mp hc
    rw [pyIsSpace_upperChar]
    exact hsp d hd
  have hk : pyStrip (upperStr kw) = upperStr kw := pyStrip_eq_self _ hupsp
  have hkne : upperStr kw ≠ [] := by
    simp only [upperStr, ne_eq, List.map_eq_nil_iff]
    exact hne
  have hnosp : (upperStr kw).contains ' ' = false := by
    cases hcon : (upperStr kw).contains ' ' with
    | false => rfl
    | true =>
      have hmem : ' ' ∈ upperStr kw := List.mem_of_elem_eq_true hcon
      have := hupsp ' ' hmem
      simp [pyIsSpace] at this
  constructor
  · unfold keywordHit
    simp only [hk]
    rw [if_neg hkne, if_neg (by rw [hnosp]; exact Bool.false_ne_true)]
    exact boundHit_iff _ _
  · intro line2 kw2 hl hk2
    unfold keywordHit
    simp only [hl, hk2]

/-- Witness for C4: the keyword "wbc" against the line "WBC: 5". -/
theorem claim4_witness :
    (keywordHit (upperStr ("WBC: 5".toList)) ("wbc".toList) = true ↔
      ∃ pre post, upperStr ("WBC: 5".toList) =
          pre ++ upperStr ("wbc".toList) ++ post ∧
        (∀ c, pre.getLast? = some c → isWordUpper c = false) ∧
        (∀ c, post.head? = some c → isWordUpper c = false)) ∧
    (∀ line2 kw2, upperStr line2 = upperStr ("WBC: 5".toList) →
      upperStr kw2 = upperStr ("wbc".toList) →
      keywordHit (upperStr line2) kw2 =
        keywordHit (upperStr ("WBC: 5".toList)) ("wbc".toList)) :=
  claim4 ("WBC: 5".toList) ("wbc".toList) (by decide) (by decide)

theorem char_toNat_inj {c d : Char} (h : c.toNat = d.toNat) : c = d :=
  Char.ext (UInt32.ext h)

theorem ws_char_cases (c : Char) (h : pyIsSpace c = true) :
    c = ' ' ∨ c = Char.ofNat 9 ∨ c = Char.ofNat 10 ∨ c = Char.ofNat 11 ∨
    c = Char.ofNat 12 ∨ c = Char.ofNat 13 := by
  unfold pyIsSpace at h
  simp only [Bool.or_eq_true, decide_eq_true_eq] at h
  rcases h with ((((h | h) | h) | h) | h) | h
  · exact Or.inl (char_toNat_inj (by rw [h]; rfl))
  · exact Or.inr (Or.inl (char_toNat_inj (by rw [h]; rfl)))
  · exact Or.inr (Or.inr (Or.inl (char_toNat_inj (by rw [h]; rfl))))
  · exact Or.inr (Or.inr (Or.inr (Or.inl (char_toNat_inj (by rw [h]; rfl)))))
  · exact Or.inr (Or.inr (Or.inr (Or.inr (Or.inl
      (char_toNat_inj (by rw [h]; rfl))))))
  · exact Or.inr (Or.inr (Or.inr (Or.inr (Or.inr
      (char_toNat_inj (by rw [h]; rfl))))))

theorem junkCleanChar_ws (c : Char) (h : pyIsSpace c = true) :
    junkCleanChar c = some c := by
  rcases ws_char_cases c h with h2 | h2 | h2 | h2 | h2 | h2 <;> rw [h2] <;>
    decide

theorem keepNumChar_ws (c : Char) (h : pyIsSpace c = true) :
    keepNumChar c = false := by
  rcases ws_char_cases c h with h2 | h2 | h2 | h2 | h2 | h2 <;> rw [h2] <;>
    decide

theorem KJ_ws_nil (w : Chars) (h : ∀ c ∈ w, pyIsSpace c = true) :
    keepNumChars (junkClean w) = [] := by
  induction w with
  | nil => rfl
  | cons c w2 ih =>
    unfold junkClean keepNumChars
    rw [List.filterMap_cons, junkCleanChar_ws c (h c (List.mem_cons_self c w2)),
      List.filter_cons_of_neg]
    · exact ih (fun d hd => h d (List.mem_cons_of_mem c hd))
    · simp [keepNumChar_ws c (h c (List.mem_cons_self c w2))]

theorem pyStrip_decomp (s : Chars) :
    ∃ w1 w2, (∀ c ∈ w1, pyIsSpace c = true) ∧ (∀ c ∈ w2, pyIsSpace c = true) ∧
      s = w1 ++ pyStrip s ++ w2 := by
  refine ⟨s.takeWhile pyIsSpace,
    ((s.dropWhile pyIsSpace).reverse.takeWhile pyIsSpace).reverse,
    fun c hc => List.mem_takeWhile_imp hc,
    fun c hc => List.mem_takeWhile_imp (List.mem_reverse.mp hc), ?_⟩
  conv_lhs => rw [← List.takeWhile_append_dropWhile pyIsSpace s]
  rw [List.append_assoc]
  congr 1
  unfold pyStrip
  rw [← List.reverse_append, List.takeWhile_append_dropWhile,
    List.reverse_reverse]

theorem KJ_strip (s : Chars) :
    keepNumChars (junkClean (pyStrip s)) = keepNumChars (junkClean s) := by
  obtain ⟨w1, w2, h1, h2, hs⟩ := pyStrip_decomp s
  conv_rhs => rw [hs]
  unfold junkClean keepNumChars
  rw [List.filterMap_append, List.filterMap_append, List.filter_append,
    List.filter_append]
  have e1 : List.filter keepNumChar (List.filterMap junkCleanChar w1) = [] :=
    KJ_ws_nil w1 h1
  have e2 : List.filter keepNumChar (List.filterMap junkCleanChar w2) = [] :=
    KJ_ws_nil w2 h2
  rw [e1, e2, List.nil_append, List.append_nil]

theorem noiseCharComp (c : Char) :
    ((stripNoiseChar c).bind junkCleanChar).filter keepNumChar =
      (junkCleanChar c).filter keepNumChar := by
  by_cases h1 : c = Char.ofNat 34 ∨ c = Char.ofNat 39 ∨ c = ':' ∨ c = '*' ∨
      c = '$' ∨ c = '<' ∨ c = '>' ∨ c = Char.ofNat 0x2264 ∨ c = Char.ofNat 0x2265
  · have hj : junkCleanChar c = none := by
      unfold junkCleanChar
      rw [if_pos (by tauto)]
    unfold stripNoiseChar
    rw [if_pos h1, hj]
    rfl
  · have hjc : ¬(c = Char.ofNat 34 ∨ c = Char.ofNat 39 ∨ c = ':' ∨ c = '*' ∨
        c = '$' ∨ c = Char.ofNat 0x2264 ∨ c = Char.ofNat 0x2265 ∨ c = '<' ∨
        c = '>') := by tauto
    by_cases h2 : c = 'O' ∨ c = 'o'
    · unfold stripNoiseChar junkCleanChar
      rw [if_neg h1, if_pos h2, if_neg hjc, if_pos h2]
      rfl
    · unfold stripNoiseChar
      rw [if_neg h1, if_neg h2]
      rfl

theorem KJ_stripNoise (s : Chars) :
    keepNumChars (junkClean (stripNoise s)) = keepNumChars (junkClean s) := by
  unfold stripNoise junkClean keepNumChars
  rw [List.filterMap_filterMap, List.filter_filterMap, List.filter_filterMap]
  exact List.filterMap_congr (fun c _ => noiseCharComp c)

theorem cleanNumber_stripNoise (s : Chars) :
    cleanNumber (stripNoise s) = cleanNumber s := by
  have hKJ : keepNumChars (junkClean (pyStrip (stripNoise s))) =
      keepNumChars (junkClean (pyStrip s)) := by
    rw [KJ_strip, KJ_strip, KJ_stripNoise]
  by_cases hs : s = []
  · subst hs; rfl
  by_cases hn : stripNoise s = []
  · rw [hn]
    show none = cleanNumber s
    have hempty : keepNumChars (junkClean s) = [] := by
      rw [← KJ_stripNoise, hn]
      rfl
    unfold cleanNumber
    rw [if_neg hs, KJ_strip, hempty]
    rfl
  · unfold cleanNumber
    rw [if_neg hs, if_neg hn, hKJ]

theorem subWsPlus_word : ∀ (w t : Chars), (∀ c ∈ w, pyIsSpace c = false) →
    subWsPlus (w ++ t) = w ++ subWsPlus t := by
  intro w
  induction w with
  | nil => intro t _; rfl
  | cons c w2 ih =>
    intro t hw
    have hc : pyIsSpace c = false := hw c (List.mem_cons_self c w2)
    cases hw2t : w2 ++ t with
    | nil =>
      obtain ⟨rfl, rfl⟩ := List.append_eq_nil.mp hw2t
      simp [subWsPlus, hc]
    | cons d rest =>
      rw [List.cons_append, hw2t]
      simp only [subWsPlus, hc, Bool.false_and, if_false, ite_false,
        Bool.false_eq_true]
      rw [← hw2t, ih t (fun x hx => hw x (List.mem_cons_of_mem c hx)),
        List.cons_append]

theorem subWsPlus_wsrun : ∀ (r : Chars) (d : Char) (t : Chars),
    (∀ c ∈ r, pyIsSpace c = true) → r ≠ [] → pyIsSpace d = false →
    subWsPlus (r ++ d :: t) = ' ' :: subWsPlus (d :: t) := by
  intro r
  induction r with
  | nil => intro d t _ hne _; exact absurd rfl hne
  | cons a r2 ih =>
    intro d t hr _ hd
    have ha : pyIsSpace a = true := hr a (List.mem_cons_self a r2)
    cases r2 with
    | nil =>
      simp [subWsPlus, ha, hd]
    | cons b r3 =>
      have hb : pyIsSpace b = true :=
        hr b (List.mem_cons_of_mem a (List.mem_cons_self b r3))
      show subWsPlus (a :: b :: (r3 ++ d :: t)) = ' ' :: subWsPlus (d :: t)
      simp only [subWsPlus, ha, hb, Bool.and_self, if_true, ite_true]
      exact ih d t (fun x hx => hr x (List.mem_cons_of_mem a hx))
        (by simp) hd

theorem wordsOf_cons_ws (a : Char) (t : Chars) (h : pyIsSpace a = true) :
    wordsOf (a :: t) = wordsOf t := by
  rw [wordsOf]
  simp [h]

theorem wordsOf_cons_nonws (c : Char) (rest : Chars)
    (h : pyIsSpace c = false) :
    wordsOf (c :: rest) =
      (c :: rest.takeWhile (fun d => !pyIsSpace d)) ::
        wordsOf (rest.dropWhile (fun d => !pyIsSpace d)) := by
  rw [wordsOf]
  simp [h]

theorem wordsOf_dropWhile_ws : ∀ l : Chars,
    wordsOf (l.dropWhile pyIsSpace) = wordsOf l := by
  intro l
  induction l with
  | nil => rfl
  | cons a t ih =>
    cases ha : pyIsSpace a with
    | true => rw [List.dropWhile_cons_of_pos ha, ih, wordsOf_cons_ws a t ha]
    | false => rw [List.dropWhile_cons_of_neg (by simp [ha])]

theorem wordsOf_allws : ∀ r : Chars, (∀ c ∈ r, pyIsSpace c = true) →
    wordsOf r = [] := by
  intro r
  induction r with
  | nil => intro _; simp [wordsOf]
  | cons a t ih =>
    intro h
    rw [wordsOf_cons_ws a t (h a (List.mem_cons_self a t))]
    exact ih (fun c hc => h c (List.mem_cons_of_mem a hc))

theorem takeWhile_append_stop (p : Char → Bool) : ∀ (a b : Chars),
    (∀ x, b.head? = some x → p x = false) →
    (a ++ b).takeWhile p = a.takeWhile p := by
  intro a
  induction a with
  | nil =>
    intro b hb
    cases b with
    | nil => rfl
    | cons x xs =>
      rw [List.nil_append, List.takeWhile_cons, hb x rfl]
      rfl
  | cons c a2 ih =>
    intro b hb
    rw [List.cons_append, List.takeWhile_cons, List.takeWhile_cons]
    cases hp : p c with
    | true => simp only [if_true, ite_true]; rw [ih b hb]
    | false => simp

theorem dropWhile_append_eq (p : Char → Bool) : ∀ (a b : Chars),
    (a ++ b).dropWhile p =
      if a.dropWhile p = [] then b.dropWhile p else a.dropWhile p ++ b := by
  intro a
  induction a with
  | nil => intro b; simp
  | cons c a2 ih =>
    intro b
    rw [List.cons_append, List.dropWhile_cons, List.dropWhile_cons]
    cases hp : p c with
    | true => simp only [if_true, ite_true]; exact ih b
    | false => simp

theorem wordsOf_append_ws (r : Chars) (hr : ∀ c ∈ r, pyIsSpace c = true) :
    ∀ (n : Nat) (v : Chars), v.length ≤ n → wordsOf (v ++ r) = wordsOf v := by
  intro n
  induction n with
  | zero =>
    intro v hv
    rw [List.length_eq_zero.mp (Nat.le_zero.mp hv)]
    rw [List.nil_append]
    rw [wordsOf_allws r hr]
    simp [wordsOf]
  | succ n ih =>
    intro v hv
    cases v with
    | nil =>
      rw [List.nil_append, wordsOf_allws r hr]
      simp [wordsOf]
    | cons c v2 =>
      rw [List.cons_append]
      cases hc : pyIsSpace c with
      | true =>
        rw [wordsOf_cons_ws c (v2 ++ r) hc, wordsOf_cons_ws c v2 hc]
        exact ih v2 (by simp only [List.length_cons] at hv; omega)
      | false =>
        rw [wordsOf_cons_nonws c (v2 ++ r) hc, wordsOf_cons_nonws c v2 hc]
        have hstop : ∀ x, r.head? = some x →
            (fun d => !pyIsSpace d) x = false := by
          intro x hx
          cases r with
          | nil => cases hx
          | cons y ys =>
            obtain rfl := Option.some.inj hx
            simp [hr y (List.mem_cons_self y ys)]
        rw [takeWhile_append_stop _ v2 r hstop]
        rw [dropWhile_append_eq _ v2 r]
        cases hdw : v2.dropWhile (fun d => !pyIsSpace d) with
        | nil =>
          rw [if_pos rfl]
          have hrr : r.dropWhile (fun d => !pyIsSpace d) = r := by
            cases r with
            | nil => rfl
            | cons y ys =>
              rw [List.dropWhile_cons_of_neg]
              simp [hr y (List.mem_cons_self y ys)]
          rw [hrr, wordsOf_allws r hr]
          simp [wordsOf]
        | cons z zs =>
          rw [if_neg (by simp [hdw])]
          rw [← hdw]
          have hlen : (v2.dropWhile (fun d => !pyIsSpace d)).length ≤ n := by
            have h1 := (@List.dropWhile_sublist Char v2
              (fun d => !pyIsSpace d)).length_le
            have h2 : v2.length ≤ n := by
              simp only [List.length_cons] at hv; omega
            omega
          rw [ih (v2.dropWhile (fun d => !pyIsSpace d)) hlen]

theorem wordsOf_pyStrip (s : Chars) : wordsOf (pyStrip s) = wordsOf s := by
  obtain ⟨w1, w2, h1, h2, hs⟩ := pyStrip_decomp s
  conv_rhs => rw [hs]
  have e1 : wordsOf (w1 ++ (pyStrip s ++ w2)) = wordsOf (pyStrip s ++ w2) := by
    clear hs
    induction w1 with
    | nil => rw [List.nil_append]
    | cons a t ih =>
      rw [List.cons_append, wordsOf_cons_ws a _ (h1 a (List.mem_cons_self a t))]
      exact ih (fun c hc => h1 c (List.mem_cons_of_mem a hc))
  rw [List.append_assoc, e1,
    wordsOf_append_ws w2 h2 (pyStrip s).length (pyStrip s) le_rfl]

theorem dropWhile_head_false (p : Char → Bool) : ∀ (l : Chars) (c : Char),
    (l.dropWhile p).head? = some c → p c = false := by
  intro l
  induction l with
  | nil => intro c h; cases h
  | cons a rest ih =>
    intro c h
    cases hp : p a with
    | true => rw [List.dropWhile_cons_of_pos hp] at h; exact ih c h
    | false =>
      rw [List.dropWhile_cons_of_neg (by simp [hp])] at h
      obtain rfl := Option.some.inj h
      exact hp

theorem dropWhile_getLast_of_ne_nil (p : Char → Bool) (l : Chars)
    (h : l.dropWhile p ≠ []) : (l.dropWhile p).getLast? = l.getLast? := by
  obtain ⟨t, ht⟩ := (List.dropWhile_suffix p : l.dropWhile p <:+ l)
  conv_rhs => rw [← ht]
  rw [List.getLast?_append]
  cases hx : (l.dropWhile p).getLast? with
  | none => exact absurd (List.getLast?_eq_none_iff.mp hx) h
  | some c => simp [Option.or]

theorem pyStrip_head (s : Chars) : ∀ c, (pyStrip s).head? = some c →
    pyIsSpace c = false := by
  intro c h
  unfold pyStrip at h
  rw [List.head?_reverse] at h
  have hne : (s.dropWhile pyIsSpace).reverse.dropWhile pyIsSpace ≠ [] := by
    intro he
    rw [he] at h
    cases h
  rw [dropWhile_getLast_of_ne_nil pyIsSpace _ hne, List.getLast?_reverse] at h
  exact dropWhile_head_false pyIsSpace s c h

theorem pyStrip_getLast (s : Chars) : ∀ c, (pyStrip s).getLast? = some c →
    pyIsSpace c = false := by
  intro c h
  unfold pyStrip at h
  rw [List.getLast?_reverse] at h
  exact dropWhile_head_false pyIsSpace _ c h

theorem getLast?_append_right (a b : Chars) (h : b ≠ []) :
    (a ++ b).getLast? = b.getLast? := by
  rw [List.getLast?_append]
  cases hx : b.getLast? with
  | none => exact absurd (List.getLast?_eq_none_iff.mp hx) h
  | some c => simp [Option.or]

theorem subWs_spaceJoin : ∀ (n : Nat) (s : Chars), s.length ≤ n →
    (∀ c, s.head? = some c → pyIsSpace c = false) →
    (∀ c, s.getLast? = some c → pyIsSpace c = false) →
    subWsPlus s = spaceJoin (wordsOf s) := by
  intro n
  induction n with
  | zero =>
    intro s hlen _ _
    have : s = [] := List.length_eq_zero.mp (Nat.le_zero.mp hlen)
    subst this
    simp [subWsPlus, wordsOf, spaceJoin]
  | succ n ih =>
    intro s hlen hhead hlast
    cases s with
    | nil => simp [subWsPlus, wordsOf, spaceJoin]
    | cons c rest =>
      have hc : pyIsSpace c = false := hhead c rfl
      have hrest : rest = rest.takeWhile (fun d => !pyIsSpace d) ++
          rest.dropWhile (fun d => !pyIsSpace d) :=
        (List.takeWhile_append_dropWhile _ rest).symm
      have hw' : ∀ x ∈ c :: rest.takeWhile (fun d => !pyIsSpace d),
          pyIsSpace x = false := by
        intro x hx
        rcases List.mem_cons.mp hx with rfl | hx
        · exact hc
        · have := List.mem_takeWhile_imp hx
          simpa using this
      rw [wordsOf_cons_nonws c rest hc]
      cases hr : rest.dropWhile (fun d => !pyIsSpace d) with
      | nil =>
        conv_lhs => rw [show c :: rest = (c ::
          rest.takeWhile (fun d => !pyIsSpace d)) ++
          rest.dropWhile (fun d => !pyIsSpace d) by
            rw [List.cons_append, ← hrest]]
        rw [hr, subWsPlus_word _ [] hw']
        simp [subWsPlus, spaceJoin, wordsOf]
      | cons e r2 =>
        have he : pyIsSpace e = true := by
          have := dropWhile_head_false (fun d => !pyIsSpace d) rest e
            (by rw [hr]; rfl)
          simpa using this
        have hrne : rest.dropWhile (fun d => !pyIsSpace d) ≠ [] := by
          rw [hr]; exact List.cons_ne_nil e r2
        have hlastr : ∀ x, (e :: r2).getLast? = some x →
            pyIsSpace x = false := by
          intro x hx
          apply hlast
          rw [show c :: rest = (c ::
            rest.takeWhile (fun d => !pyIsSpace d)) ++ (e :: r2) by
              rw [List.cons_append, ← hr, ← hrest]]
          rw [getLast?_append_right _ _ (List.cons_ne_nil e r2)]
          exact hx
        have hune : (e :: r2).dropWhile pyIsSpace ≠ [] := by
          intro hu
          have hall := List.dropWhile_eq_nil_iff.mp hu
          obtain ⟨x, hx⟩ := Option.isSome_iff_exists.mp
            (List.getLast?_isSome.mpr (List.cons_ne_nil e r2))
          have := hlastr x hx
          rw [hall x (List.mem_of_mem_getLast? hx)] at this
          cases this
        cases hu : (e :: r2).dropWhile pyIsSpace with
        | nil => exact absurd hu hune
        | cons f u2 =>
          have hf : pyIsSpace f = false :=
            dropWhile_head_false pyIsSpace (e :: r2) f (by rw [hu]; rfl)
          have htw : (e :: r2) = (e :: r2).takeWhile pyIsSpace ++
              (f :: u2) := by rw [← hu, List.takeWhile_append_dropWhile]
          have htwws : ∀ x ∈ (e :: r2).takeWhile pyIsSpace,
              pyIsSpace x = true := fun x hx => List.mem_takeWhile_imp hx
          have htwne : (e :: r2).takeWhile pyIsSpace ≠ [] := by
            rw [List.takeWhile_cons_of_pos he]
            exact List.cons_ne_nil _ _
          have hulen : (f :: u2).length ≤ n := by
            have h1 : (f :: u2).Sublist (e :: r2) := by
              rw [← hu]; exact List.dropWhile_sublist pyIsSpace
            have h2 : (e :: r2).Sublist rest := by
              rw [← hr]; exact List.dropWhile_sublist _
            have := (h1.trans h2).length_le
            simp only [List.length_cons] at hlen
            omega
          have hulast : ∀ x, (f :: u2).getLast? = some x →
              pyIsSpace x = false := by
            intro x hx
            apply hlastr
            rw [htw, getLast?_append_right _ _ (List.cons_ne_nil f u2)]
            exact hx
          have hih := ih (f :: u2) hulen
            (by intro x hx; obtain rfl := Option.some.inj hx; exact hf)
            hulast
          have hwords : wordsOf (e :: r2) = wordsOf (f :: u2) := by
            rw [← wordsOf_dropWhile_ws (e :: r2), hu]
          conv_lhs => rw [show c :: rest = (c ::
            rest.takeWhile (fun d => !pyIsSpace d)) ++ (e :: r2) by
              rw [List.cons_append, ← hr, ← hrest]]
          rw [subWsPlus_word _ _ hw']
          rw [show subWsPlus (e :: r2) = ' ' :: subWsPlus (f :: u2) by
            rw [htw]; exact subWsPlus_wsrun _ f u2 htwws htwne hf]
          rw [hih, hwords, wordsOf_cons_nonws f u2 hf]
          rfl

theorem normalizeLine_words (s : Chars) :
    normalizeLine s = spaceJoin (wordsOf s) := by
  unfold normalizeLine
  rw [subWs_spaceJoin (pyStrip s).length (pyStrip s) le_rfl
    (pyStrip_head s) (pyStrip_getLast s), wordsOf_pyStrip]

/-- C7: the text normalizer collapses whitespace and strips OCR noise.
First conjunct: `normalize_line` returns exactly the maximal
non-whitespace runs of its input joined by single spaces — so every
maximal whitespace run is replaced by one space and no leading or
trailing whitespace remains.  Second conjunct: removing the OCR noise
characters (quotes, ':', '*', '$', '<', '>', '≤', '≥', and the letters
O/o, which `clean_number` reads as 0) from a token before `clean_number`
never changes its result, i.e. `clean_number` itself strips that noise. -/
theorem claim7 :
    (∀ s : Chars, normalizeLine s = spaceJoin (wordsOf s)) ∧
    (∀ s : Chars, cleanNumber (stripNoise s) = cleanNumber s) :=
  ⟨normalizeLine_words, cleanNumber_stripNoise⟩

theorem mem_descRange {m n : Nat} (h : m ∈ descRange n) : 1 ≤ m ∧ m ≤ n := by
  induction n with
  | zero => cases h
  | succ n ih =>
    rcases List.mem_cons.mp h with rfl | h
    · omega
    · have := ih h; omega

theorem mem_descRange0 {m n : Nat} (h : m ∈ descRange0 n) : m ≤ n := by
  induction n with
  | zero =>
    rcases List.mem_cons.mp h with rfl | h
    · omega
    · cases h
  | succ n ih =>
    rcases List.mem_cons.mp h with rfl | h
    · omega
    · have := ih h; omega

theorem optCands_concat (r : Chars) : ∀ oc ∈ optCands r, oc.1 ++ oc.2 = r := by
  cases r with
  | nil =>
    intro oc hoc
    simp only [optCands, List.mem_singleton] at hoc
    subst hoc
    rfl
  | cons a rest =>
    intro oc hoc
    simp only [optCands] at hoc
    by_cases ha : sepChar a = true
    · rw [if_pos ha] at hoc
      rcases List.mem_append.mp hoc with h | h
      · obtain ⟨n, _, hn⟩ := List.mem_map.mp h
        obtain rfl := hn.symm
        simp
      · rw [List.mem_singleton] at h
        subst h
        rfl
    · rw [if_neg ha, List.mem_singleton] at hoc
      subst hoc
      rfl

theorem starChunks_take_concat : ∀ (k : Nat) (s : Chars),
    k ≤ (starChunks s).length →
    ((starChunks s).take k).flatten ++ s.drop (4 * k) = s := by
  intro k
  induction k with
  | zero => intro s _; simp
  | succ k ih =>
    intro s hk
    match s with
    | [] => simp [starChunks] at hk
    | [a] => simp [starChunks] at hk
    | [a, b] => simp [starChunks] at hk
    | [a, b, c] => simp [starChunks] at hk
    | a :: b :: c :: d :: rest =>
      by_cases hcond :
          (sepChar a && b.isDigit && c.isDigit && d.isDigit) = true
      · have hsc : starChunks (a :: b :: c :: d :: rest) =
            [a, b, c, d] :: starChunks rest := by
          rw [starChunks, if_pos hcond]
        rw [hsc] at hk ⊢
        simp only [List.length_cons, Nat.succ_le_succ_iff] at hk
        rw [List.take_succ_cons, List.flatten_cons]
        have hdrop : (a :: b :: c :: d :: rest).drop (4 * (k + 1)) =
            rest.drop (4 * k) := by
          have h4 : 4 * (k + 1) = 4 + 4 * k := by ring
          rw [h4, ← List.drop_drop]
          rfl
        rw [hdrop, List.append_assoc]
        simp only [List.cons_append, List.nil_append]
        rw [ih rest hk]
      · rw [starChunks, if_neg hcond] at hk
        simp at hk

theorem core1_concat (s : Chars) : ∀ c ∈ core1 s, c.1 ++ c.2 = s := by
  intro c hc
  unfold core1 at hc
  obtain ⟨d, hd, hc⟩ := List.mem_flatMap.mp hc
  obtain ⟨k, hk, hc⟩ := List.mem_flatMap.mp hc
  obtain ⟨oc, hoc, hc⟩ := List.mem_map.mp hc
  obtain rfl := hc.symm
  have hkle := mem_descRange0 hk
  have hoc2 := optCands_concat _ oc hoc
  dsimp only
  rw [List.append_assoc, hoc2, List.append_assoc,
    starChunks_take_concat k (s.drop d) hkle, List.take_append_drop]

theorem core2_concat (s : Chars) : ∀ c ∈ core2 s, c.1 ++ c.2 = s := by
  intro c hc
  unfold core2 at hc
  obtain ⟨e, he, hc⟩ := List.mem_flatMap.mp hc
  obtain ⟨oc, hoc, hc⟩ := List.mem_map.mp hc
  obtain rfl := hc.symm
  have hoc2 := optCands_concat _ oc hoc
  dsimp only
  rw [List.append_assoc, hoc2, List.take_append_drop]

theorem brCands_concat (core : Chars → List (Chars × Chars))
    (hcore : ∀ t, ∀ c ∈ core t, c.1 ++ c.2 = t) (s : Chars) :
    ∀ c ∈ brCands core s, c.1 ++ c.2 = s := by
  cases s with
  | nil =>
    intro c hc
    simp only [brCands] at hc
    exact hcore [] c hc
  | cons x rest =>
    intro c hc
    simp only [brCands] at hc
    by_cases hx : x = '-'
    · rw [if_pos hx] at hc
      rcases List.mem_append.mp hc with h | h
      · obtain ⟨tr, htr, h⟩ := List.mem_map.mp h
        obtain rfl := h.symm
        dsimp only
        rw [List.cons_append, hcore rest tr htr, hx]
      · exact hcore _ c h
    · rw [if_neg hx] at hc
      exact hcore _ c hc

theorem numCandidatesAt_concat (s : Chars) :
    ∀ c ∈ numCandidatesAt s, c.1 ++ c.2 = s := by
  intro c hc
  unfold numCandidatesAt at hc
  rcases List.mem_append.mp hc with h | h
  · exact brCands_concat core1 core1_concat s c h
  · exact brCands_concat core2 core2_concat s c h

theorem take_all_space (rest : Chars) (i : Nat)
    (hi : i ≤ (rest.takeWhile pyIsSpace).length) :
    ∀ c ∈ rest.take i, pyIsSpace c = true := by
  intro c hc
  have he : rest.take i = (rest.takeWhile pyIsSpace).take i := by
    conv_lhs => rw [← List.takeWhile_append_dropWhile pyIsSpace rest]
    exact List.take_append_of_le_length hi
  rw [he] at hc
  exact List.mem_takeWhile_imp (List.mem_of_mem_take hc)

theorem tryAtOffset_sound (r u : Chars) (h : tryAtOffset r = some u) :
    ∃ ws2, r = u ++ ws2 ∧ (∀ c ∈ ws2, pyIsSpace c = true) ∧
      (u = [] ∨ ∃ alt ∈ unitAlternatives, upperStr u = upperStr alt) := by
  unfold tryAtOffset at h
  cases hf : unitAlternatives.find?
      (fun alt => matchCI alt r && allSpace (r.drop alt.length)) with
  | some alt =>
    rw [hf] at h
    obtain rfl := (Option.some.inj h).symm
    have hp := List.find?_some hf
    have hmem := List.mem_of_find?_eq_some hf
    rw [Bool.and_eq_true] at hp
    refine ⟨r.drop alt.length, (List.take_append_drop _ r).symm, ?_, ?_⟩
    · intro c hc
      exact (List.all_eq_true.mp hp.2) c hc
    · right
      exact ⟨alt, hmem, of_decide_eq_true hp.1⟩
  | none =>
    rw [hf] at h
    by_cases hs : allSpace r = true
    · rw [if_pos hs] at h
      obtain rfl := (Option.some.inj h).symm
      exact ⟨r, rfl, List.all_eq_true.mp hs, Or.inl rfl⟩
    · rw [if_neg hs] at h
      cases h

theorem tailMatch_sound (rest u : Chars) (h : tailMatch rest = some u) :
    ∃ ws1 ws2, rest = ws1 ++ u ++ ws2 ∧
      (∀ c ∈ ws1, pyIsSpace c = true) ∧ (∀ c ∈ ws2, pyIsSpace c = true) ∧
      (u = [] ∨ ∃ alt ∈ unitAlternatives, upperStr u = upperStr alt) := by
  unfold tailMatch at h
  obtain ⟨i, hi, h⟩ := List.exists_of_findSome?_eq_some h
  have hile := mem_descRange0 hi
  obtain ⟨ws2, hdec, hws2, halt⟩ := tryAtOffset_sound (rest.drop i) u h
  refine ⟨rest.take i, ws2, ?_, take_all_space rest i hile, hws2, halt⟩
  rw [List.append_assoc, ← hdec, List.take_append_drop]

theorem autoMatch_sound (line lbl raw u : Chars)
    (h : autoMatch line = some (lbl, raw, u)) :
    ∃ rem, line = lbl ++ raw ++ rem ∧ tailMatch rem = some u := by
  unfold autoMatch at h
  obtain ⟨p, hp, h⟩ := List.exists_of_findSome?_eq_some h
  obtain ⟨c, hcmem, h⟩ := List.exists_of_findSome?_eq_some h
  cases ht : tailMatch c.2 with
  | none => rw [ht] at h; cases h
  | some u0 =>
    rw [ht] at h
    have h' := Option.some.inj (h.symm.trans rfl).symm
    rw [Prod.ext_iff] at h'
    obtain ⟨h1, h23⟩ := h'
    rw [Prod.ext_iff] at h23
    obtain ⟨h2, h3⟩ := h23
    dsimp only at h1 h2 h3
    refine ⟨c.2, ?_, ?_⟩
    · rw [List.append_assoc, ← h1, ← h2,
        numCandidatesAt_concat (line.drop p) c hcmem,
        List.take_append_drop]
    · rw [ht, h3]

theorem mem_dedupSeen : ∀ (l seen : List AutoRow) (a : AutoRow),
    a ∈ dedupSeen seen l → a ∈ l := by
  intro l
  induction l with
  | nil => intro seen a h; cases h
  | cons b rest ih =>
    intro seen a h
    unfold dedupSeen at h
    by_cases hb : seen.contains b = true
    · rw [if_pos hb] at h
      exact List.mem_cons_of_mem b (ih seen a h)
    · rw [if_neg hb] at h
      rcases List.mem_cons.mp h with rfl | h
      · exact List.mem_cons_self a rest
      · exact List.mem_cons_of_mem b (ih (b :: seen) a h)

theorem dedupSeen_disjoint : ∀ (l seen : List AutoRow) (x : AutoRow),
    x ∈ dedupSeen seen l → x ∉ seen := by
  intro l
  induction l with
  | nil => intro seen x h; cases h
  | cons b rest ih =>
    intro seen x h
    unfold dedupSeen at h
    by_cases hb : seen.contains b = true
    · rw [if_pos hb] at h
      exact ih seen x h
    · rw [if_neg hb] at h
      rcases List.mem_cons.mp h with rfl | h
      · intro hmem
        exact hb (List.elem_eq_true_of_mem hmem)
      · intro hmem
        exact ih (b :: seen) x h (List.mem_cons_of_mem b hmem)

theorem dedupSeen_nodup : ∀ (l seen : List AutoRow),
    (dedupSeen seen l).Nodup := by
  intro l
  induction l with
  | nil => intro seen; exact List.nodup_nil
  | cons b rest ih =>
    intro seen
    unfold dedupSeen
    by_cases hb : seen.contains b = true
    · rw [if_pos hb]
      exact ih seen
    · rw [if_neg hb]
      refine List.nodup_cons.mpr ⟨?_, ih (b :: seen)⟩
      intro hmem
      exact dedupSeen_disjoint rest (b :: seen) b hmem
        (List.mem_cons_self b seen)

/-- C9: every row of `auto_extract_results` comes from a normalized,
nonempty line of the input that is at least 4 characters long and free of
a d/m/y date pattern; the line splits into a label (whose strip of
space/period/colon/dash is the at-least-2-character Test entry), a numeric
token that `clean_number` parses to the Value entry, and a whitespace-cased
optional unit from the UNIT_RX alternatives; and no two rows of the table
agree on all of Test, Value, Unit and RawLine. -/
theorem claim9 (text : Chars) (row : AutoRow)
    (hrow : row ∈ autoExtractResults text) :
    autoRowSpec text row ∧ (autoExtractResults text).Nodup := by
  constructor
  · have hrow' : row ∈ autoRowsOf text := by
      unfold autoExtractResults dedupKeepFirst at hrow
      exact mem_dedupSeen (autoRowsOf text) [] row hrow
    obtain ⟨line, hline, hf⟩ := List.mem_filterMap.mp hrow'
    by_cases h4 : line.length < 4
    · rw [if_pos h4] at hf; cases hf
    rw [if_neg h4] at hf
    by_cases hd : dateSearch line = true
    · rw [if_pos hd] at hf; cases hf
    rw [if_neg hd] at hf
    cases hm : autoMatch line with
    | none => rw [hm] at hf; cases hf
    | some t =>
      obtain ⟨lbl, raw, u0⟩ := t
      rw [hm] at hf
      dsimp only at hf
      by_cases hlab : (pyStripOn (" .:-".toList) lbl = [] ∨
          (pyStripOn (" .:-".toList) lbl).length < 2)
      · rw [if_pos hlab] at hf; cases hf
      rw [if_neg hlab] at hf
      cases hcn : cleanNumber raw with
      | none => rw [hcn] at hf; cases hf
      | some v =>
        rw [hcn] at hf
        obtain rfl := Option.some.inj hf
        push_neg at hlab
        obtain ⟨hlab1, hlab2⟩ := hlab
        obtain ⟨rem, hl, htm⟩ := autoMatch_sound line lbl raw u0 hm
        obtain ⟨ws1, ws2, hrem, hws1, hws2, halt⟩ :=
          tailMatch_sound rem u0 htm
        refine ⟨hline, by dsimp only; omega,
          by rw [Bool.not_eq_true] at hd; exact hd,
          ?_, lbl, raw, ws1, u0, ws2, ?_, rfl, hcn, rfl, hws1, hws2, halt⟩
        · dsimp only
          omega
        · show line = lbl ++ raw ++ ws1 ++ u0 ++ ws2
          rw [hl, hrem]
          simp [List.append_assoc]
  · unfold autoExtractResults dedupKeepFirst
    exact dedupSeen_nodup (autoRowsOf text) []

/-- Witness for C9 on the two-line input "AB 12": the extracted row has
Test "AB", Value 12, empty Unit and RawLine "AB 12", and it satisfies the
row specification; the table is duplicate-free. -/
theorem claim9_witness :
    (⟨"AB".toList, 12, [], "AB 12".toList⟩ : AutoRow) ∈
      autoExtractResults ("AB 12".toList) ∧
    (autoRowSpec ("AB 12".toList)
        ⟨"AB".toList, 12, [], "AB 12".toList⟩ ∧
      (autoExtractResults ("AB 12".toList)).Nodup) :=
  ⟨by decide,
    claim9 ("AB 12".toList) ⟨"AB".toList, 12, [], "AB 12".toList⟩
      (by decide)⟩
